import Mathlib

/-!
Verification development for the einshape core: a shallow embedding of
`einshape/src/engine.py`, `einshape/src/optimizer.py`,
`einshape/src/abstract_ops.py` and `einshape/src/tensorflow/preprocessing.py`,
together with theorems settling the specification claims.

Modelling conventions:
* Python strings are `List Char`; character predicates use their ASCII
  behaviour (equations are ASCII strings).
* A dimension size (`int` or opaque tensor in Python) is `Dim`.
* Python `dict`s are association lists; kwargs `index_sizes` keys are the
  single letters the engine looks up.
* Each `raise ValueError(...)` site is one constructor of `Err`; fallible
  functions return `Except Err`.
-/

namespace Einshape

/-- Error taxonomy: one constructor per `raise` site of the embedded source
files.  The spec classifies `upperCase/arrowCount/unclosedParen/
duplicateWildcard/illegalChar` as SyntaxError, `arityWildcard/arityExact/
tooManyDims` as ArityError, `underspecified/broadcastUnspecified` as
UnderspecifiedError, `divisibility` as DivisibilityError and
`shapeMismatch/rhsIndexNotOnce/lhsIndexNotOnce` as ConsistencyError.
`keyError/indexError/zeroDivision` model Python
`KeyError`/`IndexError`/`ZeroDivisionError`. -/
inductive Err where
  | upperCase
  | arrowCount
  | unclosedParen
  | duplicateWildcard
  | illegalChar : Char → Err
  | arityWildcard
  | arityExact
  | tooManyDims
  | underspecified : Char → Char → Err
  | divisibility : List Char → Err
  | shapeMismatch : List Char → Err
  | broadcastUnspecified : Char → Err
  | rhsIndexNotOnce
  | lhsIndexNotOnce
  | keyError : Char → Err
  | indexError
  | zeroDivision
deriving DecidableEq

/-- A dimension size: either a statically known integer, or an opaque symbolic
size (a tensor object in the Python source).  Arithmetic follows the
duck-typed behaviour of the source: combining two known sizes yields a known
size, and any operation with a symbolic operand yields a symbolic result
(`int % int` and `int // int` raise `ZeroDivisionError` on a zero divisor).
The core never inspects a symbolic value (only `isinstance(x, int)` checks
and lookups by string key), so symbolic results just carry a syntactic
tag. -/
inductive Dim where
  | known : Int → Dim
  | sym : Nat → Dim
deriving DecidableEq

namespace Dim

/-- Syntactic tag of a size, used to give symbolic results an identity. -/
def tag : Dim → Nat
  | known n => n.natAbs
  | sym t => t

/-- Python `*`. -/
def mul : Dim → Dim → Dim
  | known a, known b => known (a * b)
  | x, y => sym (Nat.pair 0 (Nat.pair x.tag y.tag))

/-- Python `-`. -/
def sub : Dim → Dim → Dim
  | known a, known b => known (a - b)
  | x, y => sym (Nat.pair 1 (Nat.pair x.tag y.tag))

/-- Python `%`: on two known values the sign follows the divisor
(`Int.fmod`), and a zero divisor raises `ZeroDivisionError`; a symbolic
operand yields a symbolic result with no eager error. -/
def mod : Dim → Dim → Except Err Dim
  | known a, known b =>
    if b = 0 then .error .zeroDivision else .ok (known (a.fmod b))
  | x, y => .ok (sym (Nat.pair 2 (Nat.pair x.tag y.tag)))

/-- Python `//`: on two known values floor division (`Int.fdiv`), and a zero
divisor raises `ZeroDivisionError`; a symbolic operand yields a symbolic
result with no eager error. -/
def fdiv : Dim → Dim → Except Err Dim
  | known a, known b =>
    if b = 0 then .error .zeroDivision else .ok (known (a.fdiv b))
  | x, y => .ok (sym (Nat.pair 3 (Nat.pair x.tag y.tag)))

/-- Python `isinstance(x, int)`. -/
def isInt : Dim → Bool
  | known _ => true
  | sym _ => false

end Dim

/-- Abstract shape operations (`abstract_ops.py`), plus the TensorFlow `Tile`
(`tensorflow/preprocessing.py`).  `broadcast` carries the items of the
`axis_sizes` dict (position of the new axis in the output, mapped to its
size) in insertion order; the keys of a dict are distinct. -/
inductive ShapeOp where
  | reshape : List Dim → ShapeOp
  | transpose : List Nat → ShapeOp
  | broadcast : List (Nat × Dim) → ShapeOp
  | tile : List Dim → ShapeOp
deriving DecidableEq

/-- Python `list.insert(pos, a)` for non-negative `pos` (clamps past the
end). -/
def insertClamp (l : List Dim) (pos : Nat) (a : Dim) : List Dim :=
  l.take pos ++ a :: l.drop pos

/-- Insert one keyed item into a key-sorted list (stable). -/
def insertPair (p : Nat × Dim) : List (Nat × Dim) → List (Nat × Dim)
  | [] => [p]
  | q :: rest => if p.1 ≤ q.1 then p :: q :: rest else q :: insertPair p rest

/-- Python `sorted(d.items())` for a dict `d` with `Nat` keys (keys are
distinct, so sorting by key alone matches tuple ordering). -/
def sortByKey (l : List (Nat × Dim)) : List (Nat × Dim) :=
  l.foldr insertPair []

/-- `[input_shape[i] for i in perm]`; Python raises `IndexError` when an
entry is out of range. -/
def transposeShape (s : List Dim) : List Nat → Except Err (List Dim)
  | [] => .ok []
  | i :: rest =>
    if h : i < s.length then
      match transposeShape s rest with
      | .ok l => .ok (s.get ⟨i, h⟩ :: l)
      | .error e => .error e
    else .error .indexError

/-- `ShapeOp.transform_shape` from `abstract_ops.py` (and `Tile` from
`tensorflow/preprocessing.py`): a reshape replaces the shape outright, a
transpose permutes it, a broadcast inserts the new sizes sorted by position,
and a tile multiplies axis sizes pairwise. -/
def transformShape : ShapeOp → List Dim → Except Err (List Dim)
  | .reshape sh, _ => .ok sh
  | .transpose perm, s => transposeShape s perm
  | .broadcast bc, s =>
      .ok ((sortByKey bc).foldl (fun sh kv => insertClamp sh kv.1 kv.2) s)
  | .tile mults, s => .ok (List.zipWith Dim.mul mults s)

/-! ## Optimizer (`optimizer.py`) -/

def isReshape : ShapeOp → Bool
  | .reshape _ => true
  | _ => false

/-- `_elide_intermediate_reshapes`: keep `ops[i]` unless `ops[i:i+2]` is a
pair of contiguous reshapes, i.e. drop every `Reshape` directly followed by
another `Reshape`. -/
def elideIntermediateReshapes : List ShapeOp → List ShapeOp
  | [] => []
  | [op] => [op]
  | op :: next :: rest =>
    if isReshape op && isReshape next then elideIntermediateReshapes (next :: rest)
    else op :: elideIntermediateReshapes (next :: rest)

/-- `_is_static`: all components of the shape are concrete `int`s. -/
def isStatic (s : List Dim) : Bool := s.all Dim.isInt

/-- `_is_noop_reshape`: a `Reshape` whose statically known target shape equals
the statically known input shape. -/
def isNoopReshape (op : ShapeOp) (inputShape : List Dim) : Bool :=
  match op with
  | .reshape sh => isStatic inputShape && isStatic sh && decide (sh = inputShape)
  | _ => false

/-- `_elide_noop_reshapes`: walk the sequence tracking the evolving shape and
drop the provable no-op reshapes. -/
def elideNoopReshapes : List ShapeOp → List Dim → Except Err (List ShapeOp)
  | [], _ => .ok []
  | op :: rest, s =>
    match transformShape op s with
    | .error e => .error e
    | .ok s' =>
      match elideNoopReshapes rest s' with
      | .error e => .error e
      | .ok tail => .ok (if isNoopReshape op s then tail else op :: tail)

/-- `optimize`: contiguous-reshape elision followed by no-op elision. -/
def optimize (ops : List ShapeOp) (inputShape : List Dim) :
    Except Err (List ShapeOp) :=
  elideNoopReshapes (elideIntermediateReshapes ops) inputShape

/-- Spec-side description of pass 1: scanning from the right, keep an
operation unless it is a `Reshape` about to be shadowed by the next surviving
operation also being a `Reshape`; only the last `Reshape` of a maximal run
survives. -/
def keepLastReshapes (ops : List ShapeOp) : List ShapeOp :=
  ops.foldr
    (fun op acc =>
      match acc with
      | next :: _ => if isReshape op && isReshape next then acc else op :: acc
      | [] => [op])
    []

/-- Whether the first operation of a list is a `Reshape`. -/
def headReshape : List ShapeOp → Bool
  | op :: _ => isReshape op
  | [] => false

/-- No two directly adjacent `Reshape`s. -/
def noAdjacentReshapes : List ShapeOp → Bool
  | [] => true
  | op :: rest => !(isReshape op && headReshape rest) && noAdjacentReshapes rest

/-- Each operation of a sequence paired with its input shape, tracking the
evolving shape. -/
def shapesAlong : List ShapeOp → List Dim → Except Err (List (ShapeOp × List Dim))
  | [], _ => .ok []
  | op :: rest, s =>
    match transformShape op s with
    | .error e => .error e
    | .ok s' =>
      match shapesAlong rest s' with
      | .error e => .error e
      | .ok tail => .ok ((op, s) :: tail)

/-! ## Equation parsing (`engine.py`) -/

/-- The `'...'` wildcard marker as it appears in a grouped expression. -/
def wildcardMarker : List Char := ['.', '.', '.']

/-- Worker for `_group_dimensions`.  The Python index loop is rendered as a
char-by-char scan with an explicit mode: `none` at top level, `some g` while
inside a parenthesised group whose letters collected so far are `g`.  Inside a
group, any character that is neither a letter nor `')'` (a `'1'`, a nested
`'('`, a `'.'`, or the end of the string) makes the closing-parenthesis test
fail, exactly as in the source.  The top-level cases are split by the length
of the remaining input because the `expr[i:].startswith('...')` test looks
three characters ahead (on fewer than three characters it is always false). -/
def groupDimensionsGo :
    List Char → Option (List Char) → List (List Char) →
    Except Err (List (List Char))
  | [], none, acc => .ok acc
  | [], some _, _ => .error .unclosedParen
  | c :: rest, some g, acc =>
    if c.isAlpha then groupDimensionsGo rest (some (g ++ [c])) acc
    else if c = ')' then groupDimensionsGo rest none (acc ++ [g])
    else .error .unclosedParen
  | [c], none, acc =>
    if c.isAlpha then groupDimensionsGo [] none (acc ++ [[c]])
    else if c = '1' then groupDimensionsGo [] none (acc ++ [[]])
    else if c = '(' then groupDimensionsGo [] (some []) acc
    else .error (.illegalChar c)
  | [c, c2], none, acc =>
    if c.isAlpha then groupDimensionsGo [c2] none (acc ++ [[c]])
    else if c = '1' then groupDimensionsGo [c2] none (acc ++ [[]])
    else if c = '(' then groupDimensionsGo [c2] (some []) acc
    else .error (.illegalChar c)
  | c :: c2 :: c3 :: rest, none, acc =>
    if c.isAlpha then groupDimensionsGo (c2 :: c3 :: rest) none (acc ++ [[c]])
    else if c = '1' then groupDimensionsGo (c2 :: c3 :: rest) none (acc ++ [[]])
    else if c = '(' then groupDimensionsGo (c2 :: c3 :: rest) (some []) acc
    else if c = '.' ∧ c2 = '.' ∧ c3 = '.' then
      if wildcardMarker ∈ acc then .error .duplicateWildcard
      else groupDimensionsGo rest none (acc ++ [wildcardMarker])
    else .error (.illegalChar c)

/-- `_group_dimensions`: split an expression into its grouped dimensions. -/
def groupDimensions (expr : List Char) : Except Err (List (List Char)) :=
  groupDimensionsGo expr none []

/-- `string.ascii_uppercase`. -/
def uppercaseLetters : List Char :=
  ['A', 'B', 'C', 'D', 'E', 'F', 'G', 'H', 'I', 'J', 'K', 'L', 'M',
   'N', 'O', 'P', 'Q', 'R', 'S', 'T', 'U', 'V', 'W', 'X', 'Y', 'Z']

/-- Python `expr.replace('...', sub)`: replace every non-overlapping
occurrence, scanning left to right. -/
def replaceMarker (sub : List Char) : List Char → List Char
  | '.' :: '.' :: '.' :: rest => sub ++ replaceMarker sub rest
  | c :: rest => c :: replaceMarker sub rest
  | [] => []

/-- `_expand_wildcard`: replace the wildcard with `n` fresh upper-case
indices. -/
def expandWildcard (expr : List Char) (n : Nat) : Except Err (List Char) :=
  if uppercaseLetters.length < n then .error .tooManyDims
  else .ok (replaceMarker (uppercaseLetters.take n) expr)

/-! ## Index-size solving (`generate_ops`, lines 152-189) -/

/-- A dict from index letters to sizes, as an association list; an update
prepends, so `List.lookup` (first match) sees the latest binding. -/
abbrev SizeMap := List (Char × Dim)

def mapInsert (m : SizeMap) (a : Char) (v : Dim) : SizeMap := (a, v) :: m

/-- The per-group loop of the solver: multiply up the sizes of the indices
that appear in the `index_sizes` hints, remember the first index that does
not, and fail on a second unknown index. -/
def scanGroupGo (hints : SizeMap) :
    List Char → Dim → Option Char → Except Err (Dim × Option Char)
  | [], known, unk => .ok (known, unk)
  | a :: rest, known, unk =>
    match List.lookup a hints with
    | some v => scanGroupGo hints rest (known.mul v) unk
    | none =>
      match unk with
      | some u => .error (.underspecified u a)
      | none => scanGroupGo hints rest known (some a)

/-- Solve one LHS group against its input axis size `s`: compute
`remainder = s % known` (which raises `ZeroDivisionError` when both are
concrete and `known` is 0), raise a DivisibilityError when the remainder is
a nonzero int, then infer the one unknown index as `s // known`; or check
`s == known` when everything is specified. -/
def solveGroup (hints : SizeMap) (inferred : SizeMap) (group : List Char)
    (s : Dim) : Except Err SizeMap :=
  match scanGroupGo hints group (Dim.known 1) none with
  | .error e => .error e
  | .ok (known, some u) =>
    match s.mod known with
    | .error e => .error e
    | .ok (.known r) =>
      if r ≠ 0 then .error (.divisibility group)
      else
        match s.fdiv known with
        | .error e => .error e
        | .ok v => .ok (mapInsert inferred u v)
    | .ok (.sym _) =>
      match s.fdiv known with
      | .error e => .error e
      | .ok v => .ok (mapInsert inferred u v)
  | .ok (known, none) =>
    match s.sub known with
    | .known d => if d ≠ 0 then .error (.shapeMismatch group) else .ok inferred
    | .sym _ => .ok inferred

/-- Fold `solveGroup` over the LHS groups paired with the input shape
(`generate_ops` indexes the shape by the group's position; the two lists have
equal length at the call site). -/
def solveSizesGo (hints : SizeMap) :
    List (List Char) → List Dim → SizeMap → Except Err SizeMap
  | [], _, inferred => .ok inferred
  | _, [], inferred => .ok inferred
  | g :: gs, s :: ss, inferred =>
    match solveGroup hints inferred g s with
    | .error e => .error e
    | .ok inferred' => solveSizesGo hints gs ss inferred'

/-- `inferred_index_sizes`: starts as a copy of the hints, then one pass over
the groups. -/
def solveSizes (hints : SizeMap) (lhsGrouped : List (List Char))
    (shape : List Dim) : Except Err SizeMap :=
  solveSizesGo hints lhsGrouped shape hints

/-- `[inferred_index_sizes[a] for a in s]`, raising `KeyError` on a missing
letter. -/
def lookupAll (m : SizeMap) : List Char → Except Err (List Dim)
  | [] => .ok []
  | a :: rest =>
    match List.lookup a m with
    | some v =>
      match lookupAll m rest with
      | .ok l => .ok (v :: l)
      | .error e => .error e
    | none => .error (.keyError a)

/-! ## RHS scan and op synthesis (`generate_ops`, lines 191-248) -/

/-- `re.sub('[1()]', '', rhs)`: the RHS with grouping markers removed. -/
def rhsFlat (rhs : List Char) : List Char :=
  rhs.filter fun c => !(c = '1' || c = '(' || c = ')')

/-- The loop over `enumerate(flattened rhs)`: indices found in the ungrouped
LHS are collected into `transposed`; the others are broadcast indices and
must have a known size. -/
def scanRhsGo (ungrouped : List Char) (inferred : SizeMap) :
    List (Nat × Char) → List Char × List (Nat × Dim) →
    Except Err (List Char × List (Nat × Dim))
  | [], st => .ok st
  | (i, a) :: rest, (tr, bc) =>
    if ungrouped.contains a then scanRhsGo ungrouped inferred rest (tr ++ [a], bc)
    else
      match List.lookup a inferred with
      | some v => scanRhsGo ungrouped inferred rest (tr, bc ++ [(i, v)])
      | none => .error (.broadcastUnspecified a)

def scanRhs (ungrouped : List Char) (inferred : SizeMap) (flat : List Char) :
    Except Err (List Char × List (Nat × Dim)) :=
  scanRhsGo ungrouped inferred flat.enum ([], [])

/-- Python `str.index`: position of the first occurrence. -/
def firstIdx (a : Char) : List Char → Nat
  | [] => 0
  | c :: rest => if c = a then 0 else firstIdx a rest + 1

/-- Python `sorted(group)` on a string: ascending insertion sort. -/
def insertChar (c : Char) : List Char → List Char
  | [] => [c]
  | d :: rest => if c ≤ d then c :: d :: rest else d :: insertChar c rest

def alphabetical (g : List Char) : List Char := g.foldr insertChar []

/-- `group_size_dict`: alphabetically normalised LHS groups mapped to their
input-axis sizes; a later duplicate key overwrites (entries are prepended, so
the first `List.lookup` match is the latest). -/
def groupSizeDictGo :
    List (List Char) → List Dim → List (List Char × Dim) →
    List (List Char × Dim)
  | g :: gs, s :: ss, acc => groupSizeDictGo gs ss ((alphabetical g, s) :: acc)
  | _, _, acc => acc

def groupSizeDict (lhsGrouped : List (List Char)) (shape : List Dim) :
    List (List Char × Dim) :=
  groupSizeDictGo lhsGrouped shape []

/-- The running product of the sizes of a group's indices. -/
def groupProdGo (inferred : SizeMap) : List Char → Dim → Except Err Dim
  | [], acc => .ok acc
  | a :: rest, acc =>
    match List.lookup a inferred with
    | some v => groupProdGo inferred rest (acc.mul v)
    | none => .error (.keyError a)

/-- `group_size`: the product of the group's index sizes; when the product is
not a static `int` and the alphabetised group matches an LHS group, the LHS
axis size is preferred. -/
def groupSize (inferred : SizeMap) (dict : List (List Char × Dim))
    (g : List Char) : Except Err Dim :=
  match groupProdGo inferred g (Dim.known 1) with
  | .error e => .error e
  | .ok p =>
    match p with
    | .known _ => .ok p
    | .sym _ =>
      match List.lookup (alphabetical g) dict with
      | some s => .ok s
      | none => .ok p

/-- `[group_size(group) for group in rhs_grouped]`. -/
def outputShapeGo (inferred : SizeMap) (dict : List (List Char × Dim)) :
    List (List Char) → Except Err (List Dim)
  | [] => .ok []
  | g :: gs =>
    match groupSize inferred dict g with
    | .error e => .error e
    | .ok d =>
      match outputShapeGo inferred dict gs with
      | .ok l => .ok (d :: l)
      | .error e => .error e

/-- The body of `generate_ops` from line 152 on, once the (possibly
wildcard-expanded) RHS string and grouped LHS are fixed: solve the index
sizes, emit the ungrouping `Reshape`, the optional `Transpose` (with the
consistency checks guarding it), the optional `Broadcast`, and the regrouping
`Reshape`. -/
def generateOpsGrouped (rhs : List Char) (lhsGrouped : List (List Char))
    (inputShape : List Dim) (hints : SizeMap) : Except Err (List ShapeOp) :=
  match solveSizes hints lhsGrouped inputShape with
  | .error e => .error e
  | .ok inferred =>
    let ungrouped := lhsGrouped.flatten
    match lookupAll inferred ungrouped with
    | .error e => .error e
    | .ok ungroupedShape =>
      match scanRhs ungrouped inferred (rhsFlat rhs) with
      | .error e => .error e
      | .ok (transposed, bc) =>
        let transposeOps : Except Err (List ShapeOp) :=
          if transposed ≠ ungrouped then
            if transposed.any fun a => ungrouped.count a ≠ 1 then
              .error .rhsIndexNotOnce
            else if ungrouped.any fun a => rhs.count a ≠ 1 then
              .error .lhsIndexNotOnce
            else .ok [.transpose (transposed.map fun a => firstIdx a ungrouped)]
          else .ok []
        match transposeOps with
        | .error e => .error e
        | .ok transposeOps =>
          let broadcastOps : List ShapeOp :=
            if bc = [] then [] else [.broadcast bc]
          match groupDimensions rhs with
          | .error e => .error e
          | .ok rhsGrouped =>
            match outputShapeGo inferred (groupSizeDict lhsGrouped inputShape)
                rhsGrouped with
            | .error e => .error e
            | .ok outputShape =>
              .ok ([ShapeOp.reshape ungroupedShape] ++ transposeOps ++
                   broadcastOps ++ [ShapeOp.reshape outputShape])

/-- Python `equation.split('->')`: split on every non-overlapping occurrence
of `"->"`, scanning left to right.  (The cases are separated by length so the
two-character separator test never overlaps with the catch-all.) -/
def splitOnArrow : List Char → List (List Char)
  | [] => [[]]
  | [c] => [[c]]
  | c :: c2 :: rest =>
    if c = '-' ∧ c2 = '>' then [] :: splitOnArrow rest
    else
      match splitOnArrow (c2 :: rest) with
      | [] => [[c]]
      | p :: ps => (c :: p) :: ps

/-- `generate_ops`: compile a shape equation into abstract ops.  Rejects
upper-case indices, requires exactly one `'->'`, groups the LHS, applies the
wildcard/arity rules, then hands over to `generateOpsGrouped`. -/
def generateOps (equation : List Char) (inputShape : List Dim)
    (hints : SizeMap) : Except Err (List ShapeOp) :=
  if equation ≠ equation.map Char.toLower then .error .upperCase
  else
    match splitOnArrow equation with
    | [lhs, rhs] =>
      match groupDimensions lhs with
      | .error e => .error e
      | .ok lhsGrouped =>
        if wildcardMarker ∈ lhsGrouped then
          if inputShape.length + 1 < lhsGrouped.length then .error .arityWildcard
          else
            let n := inputShape.length - (lhsGrouped.length - 1)
            match expandWildcard lhs n with
            | .error e => .error e
            | .ok lhs' =>
              match expandWildcard rhs n with
              | .error e => .error e
              | .ok rhs' =>
                match groupDimensions lhs' with
                | .error e => .error e
                | .ok lhsGrouped' =>
                  generateOpsGrouped rhs' lhsGrouped' inputShape hints
        else
          if inputShape.length ≠ lhsGrouped.length then .error .arityExact
          else generateOpsGrouped rhs lhsGrouped inputShape hints
    | _ => .error .arrowCount

/-- The compilation pipeline the backends run: synthesis followed by
optimisation. -/
def compileEquation (equation : List Char) (inputShape : List Dim)
    (hints : SizeMap) : Except Err (List ShapeOp) :=
  match generateOps equation inputShape hints with
  | .error e => .error e
  | .ok ops => optimize ops inputShape

/-! ## The solver as claim C4 words it

Claim C4 says an index counts as known when its size comes "from the
index_sizes hints or previously inferred".  The source consults only the
original hints (`if a in index_sizes`).  The following variant implements the
claim's wording — the evolving `inferred` map is consulted — and is used only
to exhibit the input where the two disagree. -/

def scanGroupClaimGo (inferred : SizeMap) :
    List Char → Dim → Option Char → Except Err (Dim × Option Char)
  | [], known, unk => .ok (known, unk)
  | a :: rest, known, unk =>
    match List.lookup a inferred with
    | some v => scanGroupClaimGo inferred rest (known.mul v) unk
    | none =>
      match unk with
      | some u => .error (.underspecified u a)
      | none => scanGroupClaimGo inferred rest known (some a)

def solveGroupClaim (inferred : SizeMap) (group : List Char) (s : Dim) :
    Except Err SizeMap :=
  match scanGroupClaimGo inferred group (Dim.known 1) none with
  | .error e => .error e
  | .ok (known, some u) =>
    match s.mod known with
    | .error e => .error e
    | .ok (.known r) =>
      if r ≠ 0 then .error (.divisibility group)
      else
        match s.fdiv known with
        | .error e => .error e
        | .ok v => .ok (mapInsert inferred u v)
    | .ok (.sym _) =>
      match s.fdiv known with
      | .error e => .error e
      | .ok v => .ok (mapInsert inferred u v)
  | .ok (known, none) =>
    match s.sub known with
    | .known d => if d ≠ 0 then .error (.shapeMismatch group) else .ok inferred
    | .sym _ => .ok inferred

def solveSizesClaimGo :
    List (List Char) → List Dim → SizeMap → Except Err SizeMap
  | [], _, inferred => .ok inferred
  | _, [], inferred => .ok inferred
  | g :: gs, s :: ss, inferred =>
    match solveGroupClaim inferred g s with
    | .error e => .error e
    | .ok inferred' => solveSizesClaimGo gs ss inferred'

def solveSizesClaim (hints : SizeMap) (lhsGrouped : List (List Char))
    (shape : List Dim) : Except Err SizeMap :=
  solveSizesClaimGo lhsGrouped shape hints

/-- The product of the sizes of a group's indices that are known from the
`index_sizes` hints (used to state what the solver computes per group). -/
def groupKnownProd (hints : SizeMap) (group : List Char) : Dim :=
  group.foldl
    (fun acc a =>
      match List.lookup a hints with
      | some v => acc.mul v
      | none => acc)
    (Dim.known 1)

/-! ## TensorFlow preprocessing (`tensorflow/preprocessing.py`) -/

/-- The loop `for j, (axis, axis_size) in enumerate(sorted(...)):
tile_multiples[axis - j] *= axis_size`.  The keys come from a dict (distinct,
and after sorting the `j`-th key is at least `j`), so `axis - j` is the
non-negative position of the axis in the pre-broadcast shape. -/
def buildMultsGo : List (Nat × Dim) → Nat → List Dim → Except Err (List Dim)
  | [], _, mults => .ok mults
  | (k, v) :: rest, j, mults =>
    let oa := k - j
    if h : oa < mults.length then
      buildMultsGo rest (j + 1) (mults.set oa ((mults.get ⟨oa, h⟩).mul v))
    else .error .indexError

def buildMultiples (len1 : Nat) (sortedBc : List (Nat × Dim)) :
    Except Err (List Dim) :=
  buildMultsGo sortedBc 0 (List.replicate len1 (Dim.known 1))

/-- `preprocess`: rewrite every `Broadcast` into an optional trailing-axis
`Reshape`, a `Tile` with merged per-axis multiples, and a `Reshape` to the
broadcast's output shape. -/
def preprocess : List ShapeOp → List Dim → Except Err (List ShapeOp)
  | [], _ => .ok []
  | op :: rest, shape =>
    match transformShape op shape with
    | .error e => .error e
    | .ok nextShape =>
      match op with
      | .broadcast bc =>
        let trailing := (bc.map Prod.fst).contains (nextShape.length - 1)
        let shape1 := if trailing then shape ++ [Dim.known 1] else shape
        let pre : List ShapeOp :=
          if trailing then [.reshape (shape ++ [Dim.known 1])] else []
        match buildMultiples shape1.length (sortByKey bc) with
        | .error e => .error e
        | .ok mults =>
          match preprocess rest nextShape with
          | .error e => .error e
          | .ok tail => .ok (pre ++ [.tile mults, .reshape nextShape] ++ tail)
      | _ =>
        match preprocess rest nextShape with
        | .error e => .error e
        | .ok tail => .ok (op :: tail)

/-! ## Element semantics of the primitive operations

Modelled from the spec (§3, §4.5).  The element behaviour of the four
primitives is realised in the repository by external numpy/TF/JAX kernels
(`backend.reshape/transpose/broadcast/tile`), which are not part of the
embedded core, so it is defined here from the spec's descriptions: a tensor
of concrete shape `s` is its row-major flat vector, and each op determines,
for every output flat position, the input flat position it reads.  `reshape`
keeps the flat traversal order; `transpose` permutes coordinates;
`broadcast` inserts replicated axes at the given output positions; `tile`
repeats each axis in place (output coordinate `i` on an axis of original
size `d` reads input coordinate `i % d`). -/

/-- Row-major flat position of a multi-index. -/
def flatPos : List Nat → List Nat → Nat
  | _ :: ds, i :: is => i * ds.prod + flatPos ds is
  | _, _ => 0

/-- Row-major multi-index of a flat position. -/
def unflatten : List Nat → Nat → List Nat
  | [], _ => []
  | _ :: ds, n => (n / ds.prod) :: unflatten ds (n % ds.prod)

/-- Remove the entries whose position (starting at `p`) is listed in
`keys`. -/
def removePos (keys : List Nat) : List Nat → Nat → List Nat
  | [], _ => []
  | x :: xs, p =>
    if keys.contains p then removePos keys xs (p + 1)
    else x :: removePos keys xs (p + 1)

/-- A statically known non-negative size. -/
def dimToNat : Dim → Option Nat
  | .known n => if 0 ≤ n then some n.toNat else none
  | .sym _ => none

def dimsToNats : List Dim → Option (List Nat)
  | [] => some []
  | d :: ds =>
    match dimToNat d with
    | some n => (dimsToNats ds).map (n :: ·)
    | none => none

def bcToNats : List (Nat × Dim) → Option (List (Nat × Nat))
  | [] => some []
  | (k, v) :: rest =>
    match dimToNat v with
    | some n => (bcToNats rest).map ((k, n) :: ·)
    | none => none

/-- The axis positions of a broadcast are legal for an input of rank `r`
when they are strictly increasing and the `j`-th position inserts at or
before the current end of the shape list: `k_j ≤ r + j`. -/
def legalKeys (ks : List Nat) (r : Nat) : Prop :=
  List.Chain' (· < ·) ks ∧ ∀ p ∈ ks.enum, p.2 ≤ r + p.1

instance (ks : List Nat) (r : Nat) : Decidable (legalKeys ks r) :=
  inferInstanceAs
    (Decidable (List.Chain' (· < ·) ks ∧ ∀ p ∈ ks.enum, p.2 ≤ r + p.1))

/-- Python `list.insert` on a concrete shape. -/
def insertClampN (l : List Nat) (pos : Nat) (a : Nat) : List Nat :=
  l.take pos ++ a :: l.drop pos

/-- The broadcast's output shape, for concrete sizes. -/
def broadcastOutN (s : List Nat) (bc : List (Nat × Nat)) : List Nat :=
  bc.foldl (fun sh kv => insertClampN sh kv.1 kv.2) s

/-- Flat source position under a tile. -/
def tileSrc (s mults : List Nat) (n : Nat) : Nat :=
  flatPos s
    (List.zipWith (fun i d => i % d) (unflatten (List.zipWith (· * ·) mults s) n) s)

/-- Flat source position under a broadcast: decode in the output shape, drop
the coordinates of the inserted axes, re-encode in the input shape. -/
def broadcastSrc (s : List Nat) (bc : List (Nat × Nat)) (n : Nat) : Nat :=
  flatPos s (removePos (bc.map Prod.fst) (unflatten (broadcastOutN s bc) n) 0)

/-- Position of the first occurrence in a list of naturals. -/
def firstIdxNat (a : Nat) : List Nat → Nat
  | [] => 0
  | c :: rest => if c = a then 0 else firstIdxNat a rest + 1

/-- Flat source position under a transpose: input axis `k` reads the output
coordinate at the position of `k` in `perm`. -/
def transposeSrc (s perm : List Nat) (n : Nat) : Nat :=
  flatPos s
    ((List.range s.length).map fun k =>
      (unflatten (perm.map fun i => s.getD i 0) n).getD (firstIdxNat k perm) 0)

/-- One op as a shape transform plus a flat source-index map, defined when
the op is well formed for the input shape. -/
def applyOpSrc (op : ShapeOp) (s : List Nat) :
    Option (List Nat × (Nat → Nat)) :=
  match op with
  | .reshape sh =>
    match dimsToNats sh with
    | some ns => if ns.prod = s.prod then some (ns, id) else none
    | none => none
  | .transpose perm =>
    if perm.length = s.length ∧ perm.Nodup ∧ ∀ i ∈ perm, i < s.length then
      some (perm.map fun i => s.getD i 0, transposeSrc s perm)
    else none
  | .broadcast bc =>
    match bcToNats bc with
    | some bcN =>
      if legalKeys (bcN.map Prod.fst) s.length then
        some (broadcastOutN s bcN, broadcastSrc s bcN)
      else none
    | none => none
  | .tile mults =>
    match dimsToNats mults with
    | some ms =>
      if ms.length = s.length then
        some (List.zipWith (· * ·) ms s, tileSrc s ms)
      else none
    | none => none

/-- A sequence of ops as a shape transform plus a flat source-index map
(final position to original position). -/
def applySeqSrc : List ShapeOp → List Nat → Option (List Nat × (Nat → Nat))
  | [], s => some (s, id)
  | op :: rest, s =>
    match applyOpSrc op s with
    | some (s', f) =>
      match applySeqSrc rest s' with
      | some (out, g) => some (out, f ∘ g)
      | none => none
    | none => none

/-! ## Block decomposition of a legal broadcast

A legal `axis_sizes` mapping over a base shape `b` (the input shape, plus a
trailing `1` when the broadcast appends axes at the very end) partitions the
inserted sizes into blocks, one block of consecutively inserted axes sitting
immediately before each base axis.  The rewrite's `Tile` multiplies each base
axis by the product of its block; the broadcast's output interleaves the
blocks with the base axes. -/

/-- Consume the leading run of entries whose key equals the running output
position counter. -/
def consume : List (Nat × Nat) → Nat → List Nat × List (Nat × Nat)
  | [], _ => ([], [])
  | (k, v) :: rest, c =>
    if k = c then
      let r := consume rest (c + 1)
      (v :: r.1, r.2)
    else ([], (k, v) :: rest)

/-- The block of inserted sizes in front of each base axis. -/
def buildPairs : List (Nat × Nat) → List Nat → Nat → List (List Nat × Nat)
  | _, [], _ => []
  | bc, d :: ds, c =>
    let r := consume bc c
    (r.1, d) :: buildPairs r.2 ds (c + r.1.length + 1)

/-- The interleaved output shape: each block followed by its base axis. -/
def joinShape (ps : List (List Nat × Nat)) : List Nat :=
  ps.foldr (fun p acc => p.1 ++ p.2 :: acc) []

/-- The shape after tiling each base axis by its block product. -/
def tiledShape (ps : List (List Nat × Nat)) : List Nat :=
  ps.map fun p => p.1.prod * p.2

def baseShapeOf (ps : List (List Nat × Nat)) : List Nat := ps.map Prod.snd

def multsOf (ps : List (List Nat × Nat)) : List Nat := ps.map fun p => p.1.prod

/-- The positions of the inserted axes inside `joinShape`. -/
def keysOf : List (List Nat × Nat) → List Nat
  | [] => []
  | (g, _) :: rest => List.range g.length ++ (keysOf rest).map (· + (g.length + 1))

/-- The base-axis coordinates of a flat position in `joinShape`. -/
def baseCoordsOf : List (List Nat × Nat) → Nat → List Nat
  | [], _ => []
  | (_, d) :: rest, n =>
    ((n / (joinShape rest).prod) % d) :: baseCoordsOf rest (n % (joinShape rest).prod)

/-- The `axis_sizes` items reconstructed from a block decomposition whose
first inserted position is `c`: each block contributes consecutive keys. -/
def absPairs : List (List Nat × Nat) → Nat → List (Nat × Nat)
  | [], _ => []
  | (g, _) :: rest, c =>
    (List.range' c g.length).zip g ++ absPairs rest (c + g.length + 1)

/-! ## Helper lemmas: single steps of the dimension grouper -/

theorem go_cons_alpha (c : Char) (h : c.isAlpha = true) :
    ∀ (r : List Char) (acc : List (List Char)),
      groupDimensionsGo (c :: r) none acc = groupDimensionsGo r none (acc ++ [[c]])
  | [], _ => by simp [groupDimensionsGo, h]
  | [_], _ => by simp [groupDimensionsGo, h]
  | _ :: _ :: _, _ => by simp [groupDimensionsGo, h]

theorem go_cons_one :
    ∀ (r : List Char) (acc : List (List Char)),
      groupDimensionsGo ('1' :: r) none acc = groupDimensionsGo r none (acc ++ [[]])
  | [], _ => rfl
  | [_], _ => rfl
  | _ :: _ :: _, _ => rfl

theorem go_cons_open :
    ∀ (r : List Char) (acc : List (List Char)),
      groupDimensionsGo ('(' :: r) none acc = groupDimensionsGo r (some []) acc
  | [], _ => rfl
  | [_], _ => rfl
  | _ :: _ :: _, _ => rfl

theorem go_group_alpha (c : Char) (h : c.isAlpha = true) (r : List Char)
    (g : List Char) (acc : List (List Char)) :
    groupDimensionsGo (c :: r) (some g) acc =
      groupDimensionsGo r (some (g ++ [c])) acc := by
  simp [groupDimensionsGo, h]

theorem go_group_close (r : List Char) (g : List Char)
    (acc : List (List Char)) :
    groupDimensionsGo (')' :: r) (some g) acc =
      groupDimensionsGo r none (acc ++ [g]) := by
  simp [groupDimensionsGo]

theorem go_group_bad (c : Char) (h1 : c.isAlpha = false) (h2 : c ≠ ')')
    (r : List Char) (g : List Char) (acc : List (List Char)) :
    groupDimensionsGo (c :: r) (some g) acc = .error .unclosedParen := by
  simp [groupDimensionsGo, h1, h2]

theorem go_cons_illegal1 (c : Char) (h1 : c.isAlpha = false) (h2 : c ≠ '1')
    (h3 : c ≠ '(') (acc : List (List Char)) :
    groupDimensionsGo [c] none acc = .error (.illegalChar c) := by
  simp [groupDimensionsGo, h1, h2, h3]

theorem go_cons_illegal2 (c c2 : Char) (h1 : c.isAlpha = false) (h2 : c ≠ '1')
    (h3 : c ≠ '(') (acc : List (List Char)) :
    groupDimensionsGo [c, c2] none acc = .error (.illegalChar c) := by
  simp [groupDimensionsGo, h1, h2, h3]

theorem go_cons_illegal3 (c c2 c3 : Char) (rest : List Char)
    (h1 : c.isAlpha = false) (h2 : c ≠ '1') (h3 : c ≠ '(')
    (hd : ¬(c = '.' ∧ c2 = '.' ∧ c3 = '.')) (acc : List (List Char)) :
    groupDimensionsGo (c :: c2 :: c3 :: rest) none acc =
      .error (.illegalChar c) := by
  simp [groupDimensionsGo, h1, h2, h3, hd]

theorem go_cons_dots (rest : List Char) (acc : List (List Char)) :
    groupDimensionsGo ('.' :: '.' :: '.' :: rest) none acc =
      if wildcardMarker ∈ acc then .error .duplicateWildcard
      else groupDimensionsGo rest none (acc ++ [wildcardMarker]) := by
  simp [groupDimensionsGo]

/-- Replacing a `'1'` by `'()'` anywhere in the input of the grouper worker
gives the same result, in any mode and with any accumulator. -/
theorem go_one_eq_parens :
    ∀ (n : Nat) (l : List Char), l.length ≤ n →
      ∀ (m : Option (List Char)) (acc : List (List Char)) (r : List Char),
        groupDimensionsGo (l ++ '1' :: r) m acc =
          groupDimensionsGo (l ++ '(' :: ')' :: r) m acc := by
  intro n
  induction n with
  | zero =>
    intro l hl m acc r
    match l, hl with
    | [], _ =>
      simp only [List.nil_append]
      match m with
      | some g => simp [groupDimensionsGo]
      | none => rw [go_cons_one, go_cons_open, go_group_close]
  | succ n ih =>
    intro l hl m acc r
    match l with
    | [] =>
      simp only [List.nil_append]
      match m with
      | some g => simp [groupDimensionsGo]
      | none => rw [go_cons_one, go_cons_open, go_group_close]
    | c :: l' =>
      have hl' : l'.length ≤ n := by
        simp at hl
        omega
      match m with
      | some g =>
        by_cases hc : c.isAlpha
        · simp only [List.cons_append, go_group_alpha c hc]
          exact ih l' hl' _ _ _
        · by_cases hc2 : c = ')'
          · subst hc2
            simp only [List.cons_append, go_group_close]
            exact ih l' hl' _ _ _
          · simp only [List.cons_append,
              go_group_bad c (by simpa using hc) hc2]
      | none =>
        by_cases hc : c.isAlpha
        · simp only [List.cons_append, go_cons_alpha c hc]
          exact ih l' hl' _ _ _
        · by_cases hc1 : c = '1'
          · subst hc1
            simp only [List.cons_append, go_cons_one]
            exact ih l' hl' _ _ _
          · by_cases hcp : c = '('
            · subst hcp
              simp only [List.cons_append, go_cons_open]
              exact ih l' hl' _ _ _
            · have hca : c.isAlpha = false := by simpa using hc
              match l' with
              | [] =>
                rw [show (c :: []) ++ '1' :: r = c :: '1' :: r from rfl,
                    show (c :: []) ++ '(' :: ')' :: r = c :: '(' :: ')' :: r from rfl]
                match r with
                | [] =>
                  rw [go_cons_illegal2 c '1' hca hc1 hcp,
                      go_cons_illegal3 c '(' ')' [] hca hc1 hcp (by simp)]
                | x :: r' =>
                  rw [go_cons_illegal3 c '1' x r' hca hc1 hcp (by simp),
                      go_cons_illegal3 c '(' ')' (x :: r') hca hc1 hcp (by simp)]
              | c2 :: l'' =>
                match l'' with
                | [] =>
                  rw [show (c :: [c2]) ++ '1' :: r = c :: c2 :: '1' :: r from rfl,
                      show (c :: [c2]) ++ '(' :: ')' :: r = c :: c2 :: '(' :: ')' :: r from rfl,
                      go_cons_illegal3 c c2 '1' r hca hc1 hcp (by simp),
                      go_cons_illegal3 c c2 '(' (')' :: r) hca hc1 hcp (by simp)]
                | c3 :: l''' =>
                  by_cases hdots : c = '.' ∧ c2 = '.' ∧ c3 = '.'
                  · obtain ⟨d1, d2, d3⟩ := hdots
                    subst d1; subst d2; subst d3
                    have hl''' : l'''.length ≤ n := by
                      simp at hl'
                      omega
                    simp only [List.cons_append, go_cons_dots]
                    rw [ih l''' hl''' _ _ _]
                  · simp only [List.cons_append]
                    rw [go_cons_illegal3 c c2 c3 ( l''' ++ '1' :: r) hca hc1 hcp hdots,
                        go_cons_illegal3 c c2 c3 ( l''' ++ '(' :: ')' :: r) hca hc1 hcp hdots]

/-- Claim C10: the dimension grouper accepts the empty parenthesised group
`'()'` and treats it exactly like `'1'`: it appends one empty group (a size-1
axis), and replacing any `'1'` in an expression by `'()'` (or vice versa)
yields the same grouping result. -/
theorem claim10_empty_parens_like_one :
    (∀ l r : List Char,
        groupDimensions (l ++ '1' :: r) = groupDimensions (l ++ '(' :: ')' :: r))
    ∧ groupDimensions ['(', ')'] = .ok [[]] :=
  ⟨fun l r => go_one_eq_parens l.length l (Nat.le_refl _) none [] r, rfl⟩

/-- Claim C9: compilation (synthesis followed by optimisation) is a total
function of the equation, the input shape and the size hints: on every input
it either returns an operation sequence or reports an error.  (The
substantive content is that every function of the embedding, including the
scanning and solving loops, is defined by terminating recursion.) -/
theorem claim9_compile_terminates (equation : List Char)
    (inputShape : List Dim) (hints : SizeMap) :
    (∃ ops, compileEquation equation inputShape hints = .ok ops) ∨
      ∃ e, compileEquation equation inputShape hints = .error e := by
  cases h : compileEquation equation inputShape hints with
  | ok ops => exact Or.inl ⟨ops, rfl⟩
  | error e => exact Or.inr ⟨e, rfl⟩

/-! ## Claim C7: arity checking and wildcard expansion -/

/-- Claim C7: with a wildcard marker in the LHS, `generate_ops` raises an
ArityError when the input rank is below the number of LHS groups minus one;
otherwise the wildcard consumes exactly `rank - (groups - 1)` axes, expanded
in both LHS and RHS with the same fresh upper-case letters `A, B, C, ...`,
with an ArityError when that count exceeds 26.  Without a wildcard,
`generate_ops` raises an ArityError unless the rank equals the number of LHS
groups exactly. -/
theorem claim7_wildcard_and_arity (equation lhs rhs : List Char)
    (lhsG : List (List Char)) (inputShape : List Dim) (hints : SizeMap)
    (h1 : equation.map Char.toLower = equation)
    (h2 : splitOnArrow equation = [lhs, rhs])
    (h3 : groupDimensions lhs = .ok lhsG) :
    (wildcardMarker ∈ lhsG →
      (inputShape.length + 1 < lhsG.length →
        generateOps equation inputShape hints = .error .arityWildcard)
      ∧ (lhsG.length ≤ inputShape.length + 1 →
          (26 < inputShape.length - (lhsG.length - 1) →
            generateOps equation inputShape hints = .error .tooManyDims)
          ∧ (inputShape.length - (lhsG.length - 1) ≤ 26 →
              generateOps equation inputShape hints =
                match groupDimensions
                    (replaceMarker
                      (uppercaseLetters.take (inputShape.length - (lhsG.length - 1)))
                      lhs) with
                | .error e => .error e
                | .ok lhsG' =>
                  generateOpsGrouped
                    (replaceMarker
                      (uppercaseLetters.take (inputShape.length - (lhsG.length - 1)))
                      rhs)
                    lhsG' inputShape hints)))
    ∧ (wildcardMarker ∉ lhsG →
      (inputShape.length ≠ lhsG.length →
        generateOps equation inputShape hints = .error .arityExact)
      ∧ (inputShape.length = lhsG.length →
          generateOps equation inputShape hints =
            generateOpsGrouped rhs lhsG inputShape hints)) := by
  have key : generateOps equation inputShape hints =
      (if wildcardMarker ∈ lhsG then
        if inputShape.length + 1 < lhsG.length then .error .arityWildcard
        else
          match expandWildcard lhs (inputShape.length - (lhsG.length - 1)) with
          | .error e => .error e
          | .ok lhs' =>
            match expandWildcard rhs (inputShape.length - (lhsG.length - 1)) with
            | .error e => .error e
            | .ok rhs' =>
              match groupDimensions lhs' with
              | .error e => .error e
              | .ok lhsG' => generateOpsGrouped rhs' lhsG' inputShape hints
      else
        if inputShape.length ≠ lhsG.length then .error .arityExact
        else generateOpsGrouped rhs lhsG inputShape hints) := by
    simp only [generateOps, h2, h3]
    rw [if_neg (by simp [h1])]
  have hupper : uppercaseLetters.length = 26 := rfl
  constructor
  · intro hmark
    constructor
    · intro harity
      rw [key, if_pos hmark, if_pos harity]
    · intro harity
      constructor
      · intro hn
        rw [key, if_pos hmark, if_neg (by omega)]
        simp only [expandWildcard]
        rw [if_pos (by omega)]
      · intro hn
        rw [key, if_pos hmark, if_neg (by omega)]
        simp only [expandWildcard]
        rw [if_neg (by omega), if_neg (by omega)]
  · intro hmark
    constructor
    · intro hne
      rw [key, if_neg hmark, if_pos hne]
    · intro he
      rw [key, if_neg hmark, if_neg (by omega)]

/-- Witness for C7 at the equation `"a...->...a"`, input rank 3: the marker
branch applies, the wildcard consumes two axes, and compilation proceeds on
the expansion `"aAB->ABa"`. -/
theorem claim7_witness :
    ((['a', '.', '.', '.', '-', '>', '.', '.', '.', 'a'] : List Char).map
        Char.toLower = ['a', '.', '.', '.', '-', '>', '.', '.', '.', 'a'])
    ∧ wildcardMarker ∈ [['a'], wildcardMarker]
    ∧ generateOps ['a', '.', '.', '.', '-', '>', '.', '.', '.', 'a']
        [Dim.known 2, Dim.known 3, Dim.known 4] [] =
      (match groupDimensions
          (replaceMarker (uppercaseLetters.take 2) ['a', '.', '.', '.']) with
      | .error e => .error e
      | .ok lhsG' =>
        generateOpsGrouped
          (replaceMarker (uppercaseLetters.take 2) ['.', '.', '.', 'a'])
          lhsG' [Dim.known 2, Dim.known 3, Dim.known 4] []) := by
  refine ⟨by decide, by decide, ?_⟩
  exact (((claim7_wildcard_and_arity
    ['a', '.', '.', '.', '-', '>', '.', '.', '.', 'a']
    ['a', '.', '.', '.'] ['.', '.', '.', 'a'] [['a'], wildcardMarker]
    [Dim.known 2, Dim.known 3, Dim.known 4] [] (by decide) rfl rfl).1
      (by decide)).2 (by decide)).2 (by decide)

/-! ## Helper lemmas: the per-group scan of the solver -/

theorem scanGroupGo_no_unknown (hints : SizeMap) :
    ∀ (group : List Char) (k : Dim),
      (group.filter fun a => (List.lookup a hints).isNone) = [] →
      scanGroupGo hints group k none =
        .ok (group.foldl
          (fun acc a =>
            match List.lookup a hints with
            | some v => acc.mul v
            | none => acc)
          k, none) := by
  intro group
  induction group with
  | nil => intro k _; rfl
  | cons a rest ih =>
    intro k h
    simp only [List.filter_cons] at h
    cases hl : List.lookup a hints with
    | none => simp [hl] at h
    | some v =>
      rw [hl] at h
      simp only [Option.isNone_some, if_neg] at h
      simp only [scanGroupGo, hl, List.foldl_cons]
      exact ih _ (by simpa using h)

theorem scanGroupGo_keep_unknown (hints : SizeMap) :
    ∀ (group : List Char) (k : Dim) (u : Char),
      (group.filter fun a => (List.lookup a hints).isNone) = [] →
      scanGroupGo hints group k (some u) =
        .ok (group.foldl
          (fun acc a =>
            match List.lookup a hints with
            | some v => acc.mul v
            | none => acc)
          k, some u) := by
  intro group
  induction group with
  | nil => intro k u _; rfl
  | cons a rest ih =>
    intro k u h
    simp only [List.filter_cons] at h
    cases hl : List.lookup a hints with
    | none => simp [hl] at h
    | some v =>
      rw [hl] at h
      simp only [scanGroupGo, hl, List.foldl_cons]
      exact ih _ _ (by simpa using h)

theorem scanGroupGo_one_unknown (hints : SizeMap) :
    ∀ (group : List Char) (k : Dim) (u : Char),
      (group.filter fun a => (List.lookup a hints).isNone) = [u] →
      scanGroupGo hints group k none =
        .ok (group.foldl
          (fun acc a =>
            match List.lookup a hints with
            | some v => acc.mul v
            | none => acc)
          k, some u) := by
  intro group
  induction group with
  | nil => intro k u h; simp at h
  | cons a rest ih =>
    intro k u h
    simp only [List.filter_cons] at h
    cases hl : List.lookup a hints with
    | none =>
      rw [hl] at h
      simp only [Option.isNone_none, if_pos] at h
      have ha : a = u ∧ (rest.filter fun a => (List.lookup a hints).isNone) = [] := by
        simpa using h
      obtain ⟨rfl, hrest⟩ := ha
      simp only [scanGroupGo, hl, List.foldl_cons]
      exact scanGroupGo_keep_unknown hints rest k a hrest
    | some v =>
      rw [hl] at h
      simp only [scanGroupGo, hl, List.foldl_cons]
      exact ih _ _ (by simpa using h)

theorem scanGroupGo_extra_unknown (hints : SizeMap) :
    ∀ (group : List Char) (k : Dim) (u : Char),
      (group.filter fun a => (List.lookup a hints).isNone) ≠ [] →
      ∃ u2, scanGroupGo hints group k (some u) = .error (.underspecified u u2) := by
  intro group
  induction group with
  | nil => intro k u h; simp at h
  | cons a rest ih =>
    intro k u h
    cases hl : List.lookup a hints with
    | none => exact ⟨a, by simp [scanGroupGo, hl]⟩
    | some v =>
      simp only [List.filter_cons, hl] at h
      simp only [scanGroupGo, hl]
      exact ih _ u (by simpa using h)

theorem scanGroupGo_many_unknown (hints : SizeMap) :
    ∀ (group : List Char) (k : Dim),
      2 ≤ (group.filter fun a => (List.lookup a hints).isNone).length →
      ∃ u1 u2,
        scanGroupGo hints group k none = .error (.underspecified u1 u2) := by
  intro group
  induction group with
  | nil => intro k h; simp at h
  | cons a rest ih =>
    intro k h
    cases hl : List.lookup a hints with
    | none =>
      have hne : (rest.filter fun a => (List.lookup a hints).isNone) ≠ [] := by
        simp only [List.filter_cons, hl] at h
        simp only [Option.isNone_none, if_pos, List.length_cons] at h
        intro he
        rw [he] at h
        simp at h
      obtain ⟨u2, hu2⟩ := scanGroupGo_extra_unknown hints rest k a hne
      exact ⟨a, u2, by simp [scanGroupGo, hl, hu2]⟩
    | some v =>
      simp only [List.filter_cons, hl] at h
      simp only [scanGroupGo, hl]
      exact ih _ (by simpa using h)

/-! ## Claim C4: the per-group index-size solver -/

/-- Claim C4, amended: an index of a group counts as known exactly when its
size appears in the `index_sizes` hints (previously inferred sizes are NOT
consulted).  With `known` the product of the hint sizes of the group's
indices: two or more hint-unknown indices give an UnderspecifiedError naming
the first two; with exactly one unknown index `u`, the solver first computes
`s % known`, which raises `ZeroDivisionError` when `s` and `known` are both
concrete and `known = 0`; otherwise a concrete nonzero remainder raises a
DivisibilityError, a concrete zero remainder records `u ↦ s // known`, and a
symbolic remainder skips the check and records the (symbolic) `s // known`;
no unknown index gives a ConsistencyError when both are concrete and
`s ≠ known`, and a symbolic `s - known` skips the equality check. -/
theorem claim4_solver_per_group (hints inferred : SizeMap) (group : List Char)
    (s : Dim) :
    (2 ≤ (group.filter fun a => (List.lookup a hints).isNone).length →
      ∃ u1 u2, solveGroup hints inferred group s = .error (.underspecified u1 u2))
    ∧ ((group.filter fun a => (List.lookup a hints).isNone) = [] →
        (∀ m k : Int, s = .known m → groupKnownProd hints group = .known k →
          m ≠ k →
          solveGroup hints inferred group s = .error (.shapeMismatch group))
        ∧ ((s.sub (groupKnownProd hints group)).isInt = false →
            solveGroup hints inferred group s = .ok inferred)
        ∧ (∀ m k : Int, s = .known m → groupKnownProd hints group = .known k →
            m = k → solveGroup hints inferred group s = .ok inferred))
    ∧ (∀ u : Char,
        (group.filter fun a => (List.lookup a hints).isNone) = [u] →
        (∀ m : Int, s = .known m → groupKnownProd hints group = .known 0 →
          solveGroup hints inferred group s = .error .zeroDivision)
        ∧ (∀ m k : Int, s = .known m → groupKnownProd hints group = .known k →
            k ≠ 0 → m.fmod k ≠ 0 →
            solveGroup hints inferred group s = .error (.divisibility group))
        ∧ (∀ m k : Int, s = .known m → groupKnownProd hints group = .known k →
            k ≠ 0 → m.fmod k = 0 →
            solveGroup hints inferred group s =
              .ok (mapInsert inferred u (Dim.known (m.fdiv k))))
        ∧ (∀ t : Nat, s.mod (groupKnownProd hints group) = .ok (.sym t) →
            ∃ v, s.fdiv (groupKnownProd hints group) = .ok v ∧
              solveGroup hints inferred group s =
                .ok (mapInsert inferred u v))) := by
  refine ⟨?_, ?_, ?_⟩
  · intro h2
    obtain ⟨u1, u2, hscan⟩ := scanGroupGo_many_unknown hints group (Dim.known 1) h2
    exact ⟨u1, u2, by simp [solveGroup, hscan]⟩
  · intro h0
    have hscan := scanGroupGo_no_unknown hints group (Dim.known 1) h0
    refine ⟨?_, ?_, ?_⟩
    · intro m k hs hk hne
      subst hs
      simp only [groupKnownProd] at hk
      simp only [solveGroup, hscan, hk]
      simp [Dim.sub, sub_ne_zero.mpr hne]
    · intro hsym
      simp only [solveGroup, hscan]
      cases hd : (s.sub (groupKnownProd hints group)) with
      | known d => rw [hd] at hsym; simp [Dim.isInt] at hsym
      | sym t => simp [groupKnownProd] at hd; rw [hd]
    · intro m k hs hk he
      subst hs
      simp only [groupKnownProd] at hk
      simp only [solveGroup, hscan, hk]
      simp [Dim.sub, he]
  · intro u h1
    have hscan := scanGroupGo_one_unknown hints group (Dim.known 1) u h1
    refine ⟨?_, ?_, ?_, ?_⟩
    · intro m hs hk
      subst hs
      simp only [groupKnownProd] at hk
      simp only [solveGroup, hscan, hk]
      simp [Dim.mod]
    · intro m k hs hk hk0 hne
      subst hs
      simp only [groupKnownProd] at hk
      simp only [solveGroup, hscan, hk]
      simp [Dim.mod, hk0, hne]
    · intro m k hs hk hk0 he
      subst hs
      simp only [groupKnownProd] at hk
      simp only [solveGroup, hscan, hk]
      simp [Dim.mod, Dim.fdiv, hk0, he]
    · intro t hmod
      have hfdiv : ∃ v, Dim.fdiv s (groupKnownProd hints group) = .ok v := by
        cases s with
        | sym ts => exact ⟨_, rfl⟩
        | known m =>
          cases hg : groupKnownProd hints group with
          | sym tg => exact ⟨_, rfl⟩
          | known k =>
            rw [hg] at hmod
            by_cases hk0 : k = 0
            · subst hk0
              simp [Dim.mod] at hmod
            · simp [Dim.mod, hk0] at hmod
      obtain ⟨v, hv⟩ := hfdiv
      refine ⟨v, hv, ?_⟩
      simp only [groupKnownProd] at hmod hv
      simp only [solveGroup, hscan, hmod, hv]

/-- Counterexample to claim C4 as stated: on `"i(ij)->ij"` with shape
`[3, 12]` and no hints, the claim's reading (an index is known if hinted
or previously inferred: `i` was inferred as 3 from the first group, so the
second group has exactly one unknown and `j` should be inferred as 4) says
the solver succeeds, but `generate_ops` raises an UnderspecifiedError on
the group `(ij)`. -/
theorem claim4_counterexample :
    solveSizesClaim [] [['i'], ['i', 'j']] [Dim.known 3, Dim.known 12] =
      .ok [('j', Dim.known 4), ('i', Dim.known 3)]
    ∧ solveSizes [] [['i'], ['i', 'j']] [Dim.known 3, Dim.known 12] =
      .error (.underspecified 'i' 'j')
    ∧ generateOps ['i', '(', 'i', 'j', ')', '-', '>', 'i', 'j']
        [Dim.known 3, Dim.known 12] [] = .error (.underspecified 'i' 'j') := by
  refine ⟨rfl, rfl, rfl⟩

/-- Witness for C4 (amended) at group `(ij)` with hint `i=3` against axis
size 15: `j` is inferred as `15 // 3 = 5`. -/
theorem claim4_witness :
    ((['i', 'j'].filter
        fun a => (List.lookup a [('i', Dim.known 3)]).isNone) = ['j'])
    ∧ groupKnownProd [('i', Dim.known 3)] ['i', 'j'] = Dim.known 3
    ∧ solveGroup [('i', Dim.known 3)] [] ['i', 'j'] (Dim.known 15) =
      .ok [('j', Dim.known 5)] := by
  refine ⟨by decide, by decide, ?_⟩
  have h := (((claim4_solver_per_group [('i', Dim.known 3)] [] ['i', 'j']
      (Dim.known 15)).2.2 'j' (by decide)).2.2.1) 15 3 rfl (by decide)
      (by decide) (by decide)
  rw [show ((15 : Int).fdiv 3) = 5 from by decide] at h
  exact h

/-! ## Claim C2: the shared-index bijection check -/

/-- Claim C2, amended: the bijection check runs only when the shared-index
subsequence of the flattened RHS differs from the ungrouped LHS string.
Under that extra condition (and provided the preceding RHS scan did not fail
on a size-less broadcast index): if some shared RHS index occurs more than
once in the ungrouped LHS, or some ungrouped LHS index occurs other than
exactly once in the RHS, `generate_ops` raises a ConsistencyError (one of
its two forms) and returns no operation sequence. -/
theorem claim2_shared_index_bijection (rhs : List Char)
    (lhsG : List (List Char)) (shape : List Dim) (hints inferred : SizeMap)
    (ungroupedShape : List Dim) (transposed : List Char)
    (bc : List (Nat × Dim))
    (hsolve : solveSizes hints lhsG shape = .ok inferred)
    (hlook : lookupAll inferred lhsG.flatten = .ok ungroupedShape)
    (hscan : scanRhs lhsG.flatten inferred (rhsFlat rhs) = .ok (transposed, bc))
    (hne : transposed ≠ lhsG.flatten)
    (hbij : (∃ a ∈ transposed, lhsG.flatten.count a ≠ 1)
        ∨ ∃ a ∈ lhsG.flatten, rhs.count a ≠ 1) :
    generateOpsGrouped rhs lhsG shape hints = .error .rhsIndexNotOnce
    ∨ generateOpsGrouped rhs lhsG shape hints = .error .lhsIndexNotOnce := by
  simp only [generateOpsGrouped, hsolve, hlook, hscan]
  rw [if_pos hne]
  by_cases h1 : ∃ a ∈ transposed, lhsG.flatten.count a ≠ 1
  · left
    have hb : (transposed.any fun a => lhsG.flatten.count a ≠ 1) = true := by
      simp only [List.any_eq_true, decide_eq_true_eq]
      exact h1
    rw [if_pos hb]
  · right
    have h2 : ∃ a ∈ lhsG.flatten, rhs.count a ≠ 1 := hbij.resolve_left h1
    have hb1 : ¬((transposed.any fun a => lhsG.flatten.count a ≠ 1) = true) := by
      simp only [List.any_eq_true, decide_eq_true_eq]
      exact h1
    have hb2 : (lhsG.flatten.any fun a => rhs.count a ≠ 1) = true := by
      simp only [List.any_eq_true, decide_eq_true_eq]
      exact h2
    rw [if_neg hb1, if_pos hb2]

/-- Counterexample to claim C2 as stated: on `"ii->ii"` with shape `[3, 3]`,
parsing, arity checking and index-size solving all pass, and the shared
index `'i'` occurs twice on each side (so the shared indices are not a
bijection), yet `generate_ops` raises nothing and returns an operation
sequence: the consistency checks are skipped because the shared-index
subsequence of the RHS equals the ungrouped LHS. -/
theorem claim2_counterexample :
    (['i', 'i'] : List Char).count 'i' = 2
    ∧ (rhsFlat ['i', 'i']).count 'i' = 2
    ∧ generateOps ['i', 'i', '-', '>', 'i', 'i']
        [Dim.known 3, Dim.known 3] [] =
      .ok [.reshape [Dim.known 3, Dim.known 3],
           .reshape [Dim.known 3, Dim.known 3]] :=
  ⟨rfl, rfl, rfl⟩

/-- Witness for C2 (amended) at `"ij->i"` on shape `[2, 3]`: the LHS index
`'j'` is missing from the RHS and the shared-index order differs, so the
synthesis stage reports a ConsistencyError. -/
theorem claim2_witness :
    solveSizes [] [['i'], ['j']] [Dim.known 2, Dim.known 3] =
      .ok [('j', Dim.known 3), ('i', Dim.known 2)]
    ∧ (generateOpsGrouped ['i'] [['i'], ['j']] [Dim.known 2, Dim.known 3] [] =
        .error .rhsIndexNotOnce
      ∨ generateOpsGrouped ['i'] [['i'], ['j']] [Dim.known 2, Dim.known 3] [] =
        .error .lhsIndexNotOnce) := by
  refine ⟨rfl, ?_⟩
  exact claim2_shared_index_bijection ['i'] [['i'], ['j']]
    [Dim.known 2, Dim.known 3] [] [('j', Dim.known 3), ('i', Dim.known 2)]
    [Dim.known 2, Dim.known 3] ['i'] [] rfl rfl rfl (by decide)
    (Or.inr ⟨'j', by decide, by decide⟩)

/-! ## Claim C1: the fixed structure of the synthesized sequence -/

/-- Characterisation of the RHS scan: on success, the collected `transposed`
string is the subsequence of the scanned indices present in the ungrouped
LHS, and broadcast entries are collected exactly for the indices that are
not. -/
theorem scanRhsGo_spec (ungrouped : List Char) (inferred : SizeMap) :
    ∀ (l : List (Nat × Char)) (tr0 : List Char) (bc0 : List (Nat × Dim))
      (tr : List Char) (bc : List (Nat × Dim)),
      scanRhsGo ungrouped inferred l (tr0, bc0) = .ok (tr, bc) →
      tr = tr0 ++ (l.map Prod.snd).filter (fun a => ungrouped.contains a)
      ∧ ∃ newbc, bc = bc0 ++ newbc
          ∧ (newbc = [] ↔ ∀ a ∈ l.map Prod.snd, ungrouped.contains a) := by
  intro l
  induction l with
  | nil =>
    intro tr0 bc0 tr bc h
    simp only [scanRhsGo] at h
    obtain ⟨h1, h2⟩ : tr0 = tr ∧ bc0 = bc := by
      cases h
      exact ⟨rfl, rfl⟩
    subst h1; subst h2
    exact ⟨by simp, [], by simp⟩
  | cons p rest ih =>
    obtain ⟨i, a⟩ := p
    intro tr0 bc0 tr bc h
    simp only [scanRhsGo] at h
    by_cases hm : a ∈ ungrouped
    · rw [if_pos (by simpa using hm)] at h
      obtain ⟨h1, newbc, h2, h3⟩ := ih _ _ _ _ h
      refine ⟨?_, newbc, h2, ?_⟩
      · rw [h1, List.append_assoc]
        congr 1
        simp [List.filter_cons, hm]
      · rw [h3]
        simp [List.forall_mem_cons, hm]
    · rw [if_neg (by simpa using hm)] at h
      cases hl : List.lookup a inferred with
      | none => rw [hl] at h; cases h
      | some v =>
        rw [hl] at h
        obtain ⟨h1, newbc, h2, h3⟩ := ih _ _ _ _ h
        refine ⟨?_, (i, v) :: newbc, ?_, ?_⟩
        · rw [h1]
          congr 1
          simp [List.filter_cons, hm]
        · rw [h2]
          simp
        · simp [List.forall_mem_cons, hm]

/-- The ops produced by the grouped stage have the fixed structure
`[Reshape, Transpose?, Broadcast?, Reshape]`: the transpose (with
`perm[i]` the first position in the ungrouped LHS of the `i`-th shared RHS
index) is present exactly when the shared-index subsequence of the flattened
RHS differs from the ungrouped LHS, and the broadcast exactly when some
flattened-RHS index is absent from the ungrouped LHS. -/
theorem generateOpsGrouped_structure (rhs : List Char)
    (lhsG : List (List Char)) (inputShape : List Dim) (hints : SizeMap)
    (ops : List ShapeOp)
    (h : generateOpsGrouped rhs lhsG inputShape hints = .ok ops) :
    ∃ (inferred : SizeMap) (ungroupedShape : List Dim)
      (rhsG : List (List Char)) (outputShape : List Dim)
      (bc : List (Nat × Dim)),
      solveSizes hints lhsG inputShape = .ok inferred
      ∧ lookupAll inferred lhsG.flatten = .ok ungroupedShape
      ∧ scanRhs lhsG.flatten inferred (rhsFlat rhs) =
          .ok ((rhsFlat rhs).filter (fun a => lhsG.flatten.contains a), bc)
      ∧ (bc = [] ↔ ∀ a ∈ rhsFlat rhs, lhsG.flatten.contains a)
      ∧ groupDimensions rhs = .ok rhsG
      ∧ outputShapeGo inferred (groupSizeDict lhsG inputShape) rhsG =
          .ok outputShape
      ∧ ops =
          [ShapeOp.reshape ungroupedShape]
          ++ (if (rhsFlat rhs).filter (fun a => lhsG.flatten.contains a) =
                lhsG.flatten
              then []
              else [ShapeOp.transpose
                (((rhsFlat rhs).filter (fun a => lhsG.flatten.contains a)).map
                  (fun a => firstIdx a lhsG.flatten))])
          ++ (if bc = [] then [] else [ShapeOp.broadcast bc])
          ++ [ShapeOp.reshape outputShape] := by
  unfold generateOpsGrouped at h
  cases hsolve : solveSizes hints lhsG inputShape with
  | error e => simp only [hsolve] at h; cases h
  | ok inferred =>
  simp only [hsolve] at h
  cases hlook : lookupAll inferred lhsG.flatten with
  | error e => simp only [hlook] at h; cases h
  | ok ungroupedShape =>
  simp only [hlook] at h
  cases hscan : scanRhs lhsG.flatten inferred (rhsFlat rhs) with
  | error e => simp only [hscan] at h; cases h
  | ok trbc =>
  obtain ⟨transposed, bc⟩ := trbc
  simp only [hscan] at h
  obtain ⟨htr, newbc, hbc, hiff⟩ :=
    scanRhsGo_spec lhsG.flatten inferred (rhsFlat rhs).enum [] [] transposed bc
      hscan
  have henum : ((rhsFlat rhs).enum.map Prod.snd) = rhsFlat rhs := by
    simp [List.enum]
  rw [henum] at htr hiff
  simp only [List.nil_append] at htr hbc
  subst htr
  subst hbc
  refine ⟨inferred, ungroupedShape, ?_⟩
  by_cases hne :
      (rhsFlat rhs).filter (fun a => lhsG.flatten.contains a) = lhsG.flatten
  · rw [if_neg (by simpa using hne)] at h
    simp only [] at h
    cases hrg : groupDimensions rhs with
    | error e => simp only [hrg] at h; cases h
    | ok rhsG =>
    simp only [hrg] at h
    cases hout : outputShapeGo inferred (groupSizeDict lhsG inputShape) rhsG with
    | error e => simp only [hout] at h; cases h
    | ok outputShape =>
    simp only [hout] at h
    refine ⟨rhsG, outputShape, bc, rfl, hlook, hscan, hiff, rfl, hout, ?_⟩
    rw [if_pos hne]
    cases h
    rfl
  · rw [if_pos (by simpa using hne)] at h
    cases hcnt1 :
        (((rhsFlat rhs).filter (fun a => lhsG.flatten.contains a)).any
          fun a => lhsG.flatten.count a ≠ 1) with
    | true => simp only [hcnt1, if_true] at h; cases h
    | false =>
    simp only [hcnt1, Bool.false_eq_true, if_false] at h
    cases hcnt2 : (lhsG.flatten.any fun a => rhs.count a ≠ 1) with
    | true => simp only [hcnt2, if_true] at h; cases h
    | false =>
    simp only [hcnt2, Bool.false_eq_true, if_false] at h
    cases hrg : groupDimensions rhs with
    | error e => simp only [hrg] at h; cases h
    | ok rhsG =>
    simp only [hrg] at h
    cases hout : outputShapeGo inferred (groupSizeDict lhsG inputShape) rhsG with
    | error e => simp only [hout] at h; cases h
    | ok outputShape =>
    simp only [hout] at h
    refine ⟨rhsG, outputShape, bc, rfl, hlook, hscan, hiff, rfl, hout, ?_⟩
    rw [if_neg hne]
    cases h
    rfl

/-- Claim C1: whenever `generate_ops` succeeds, the returned sequence has
the fixed structure `[Reshape, Transpose?, Broadcast?, Reshape]`: the first
`Reshape` (to the ungrouped LHS shape `ungroupedShape`) and the final
`Reshape` (to the RHS group sizes `outputShape`) are always emitted; a
`Transpose` whose `perm[i]` is the position in the ungrouped LHS of the
`i`-th shared RHS index is emitted exactly when the shared-index subsequence
of the flattened RHS differs from the ungrouped LHS; and a `Broadcast` is
emitted exactly when some index of the flattened RHS is absent from the
LHS.  (`rhs` and `lhsG` are the post-wildcard RHS string and grouped LHS the
run went through.) -/
theorem claim1_fixed_structure (equation : List Char) (inputShape : List Dim)
    (hints : SizeMap) (ops : List ShapeOp)
    (h : generateOps equation inputShape hints = .ok ops) :
    ∃ (rhs : List Char) (lhsG : List (List Char)) (inferred : SizeMap)
      (ungroupedShape : List Dim) (rhsG : List (List Char))
      (outputShape : List Dim) (bc : List (Nat × Dim)),
      generateOpsGrouped rhs lhsG inputShape hints = .ok ops
      ∧ solveSizes hints lhsG inputShape = .ok inferred
      ∧ lookupAll inferred lhsG.flatten = .ok ungroupedShape
      ∧ scanRhs lhsG.flatten inferred (rhsFlat rhs) =
          .ok ((rhsFlat rhs).filter (fun a => lhsG.flatten.contains a), bc)
      ∧ (bc = [] ↔ ∀ a ∈ rhsFlat rhs, lhsG.flatten.contains a)
      ∧ groupDimensions rhs = .ok rhsG
      ∧ outputShapeGo inferred (groupSizeDict lhsG inputShape) rhsG =
          .ok outputShape
      ∧ ops =
          [ShapeOp.reshape ungroupedShape]
          ++ (if (rhsFlat rhs).filter (fun a => lhsG.flatten.contains a) =
                lhsG.flatten
              then []
              else [ShapeOp.transpose
                (((rhsFlat rhs).filter (fun a => lhsG.flatten.contains a)).map
                  (fun a => firstIdx a lhsG.flatten))])
          ++ (if bc = [] then [] else [ShapeOp.broadcast bc])
          ++ [ShapeOp.reshape outputShape] := by
  unfold generateOps at h
  by_cases hup : equation ≠ equation.map Char.toLower
  · rw [if_pos hup] at h; cases h
  rw [if_neg hup] at h
  cases hsplit : splitOnArrow equation with
  | nil => simp only [hsplit] at h; cases h
  | cons lhs ps =>
  cases ps with
  | nil => simp only [hsplit] at h; cases h
  | cons rhs qs =>
  cases qs with
  | cons r rs => simp only [hsplit] at h; cases h
  | nil =>
  simp only [hsplit] at h
  cases hlg : groupDimensions lhs with
  | error e => simp only [hlg] at h; cases h
  | ok lhsG =>
  simp only [hlg] at h
  by_cases hmark : wildcardMarker ∈ lhsG
  · rw [if_pos hmark] at h
    by_cases harity : inputShape.length + 1 < lhsG.length
    · rw [if_pos harity] at h; cases h
    rw [if_neg harity] at h
    simp only [expandWildcard] at h
    by_cases hn :
        uppercaseLetters.length < inputShape.length - (lhsG.length - 1)
    · rw [if_pos hn] at h
      simp only [] at h
      cases h
    rw [if_neg hn, if_neg hn] at h
    simp only [] at h
    cases hlg2 : groupDimensions
        (replaceMarker
          (uppercaseLetters.take
            (inputShape.length - (lhsG.length - 1))) lhs) with
    | error e => simp only [hlg2] at h; cases h
    | ok lhsG' =>
    simp only [hlg2] at h
    obtain ⟨inferred, us, rhsG, os, bc, c1, c2, c3, c4, c5, c6, c7⟩ :=
      generateOpsGrouped_structure _ _ _ _ _ h
    exact ⟨_, lhsG', inferred, us, rhsG, os, bc, h, c1, c2, c3, c4, c5, c6, c7⟩
  · rw [if_neg hmark] at h
    by_cases hne : inputShape.length ≠ lhsG.length
    · rw [if_pos hne] at h; cases h
    rw [if_neg hne] at h
    obtain ⟨inferred, us, rhsG, os, bc, c1, c2, c3, c4, c5, c6, c7⟩ :=
      generateOpsGrouped_structure _ _ _ _ _ h
    exact ⟨rhs, lhsG, inferred, us, rhsG, os, bc, h, c1, c2, c3, c4, c5, c6, c7⟩

/-- Witness for C1 at `"ij->jki"` on shape `[2, 3]` with hint `k = 4`: all
four slots of the fixed structure are present. -/
theorem claim1_witness :
    generateOps ['i', 'j', '-', '>', 'j', 'k', 'i']
      [Dim.known 2, Dim.known 3] [('k', Dim.known 4)] =
      .ok [.reshape [Dim.known 2, Dim.known 3], .transpose [1, 0],
           .broadcast [(1, Dim.known 4)],
           .reshape [Dim.known 3, Dim.known 4, Dim.known 2]]
    ∧ ∃ (rhs : List Char) (lhsG : List (List Char)) (inferred : SizeMap)
        (ungroupedShape : List Dim) (rhsG : List (List Char))
        (outputShape : List Dim) (bc : List (Nat × Dim)),
        generateOpsGrouped rhs lhsG [Dim.known 2, Dim.known 3]
            [('k', Dim.known 4)] =
          .ok [.reshape [Dim.known 2, Dim.known 3], .transpose [1, 0],
               .broadcast [(1, Dim.known 4)],
               .reshape [Dim.known 3, Dim.known 4, Dim.known 2]]
        ∧ solveSizes [('k', Dim.known 4)] lhsG [Dim.known 2, Dim.known 3] =
            .ok inferred
        ∧ lookupAll inferred lhsG.flatten = .ok ungroupedShape
        ∧ scanRhs lhsG.flatten inferred (rhsFlat rhs) =
            .ok ((rhsFlat rhs).filter (fun a => lhsG.flatten.contains a), bc)
        ∧ (bc = [] ↔ ∀ a ∈ rhsFlat rhs, lhsG.flatten.contains a)
        ∧ groupDimensions rhs = .ok rhsG
        ∧ outputShapeGo inferred
            (groupSizeDict lhsG [Dim.known 2, Dim.known 3]) rhsG =
            .ok outputShape
        ∧ [ShapeOp.reshape [Dim.known 2, Dim.known 3],
           ShapeOp.transpose [1, 0], ShapeOp.broadcast [(1, Dim.known 4)],
           ShapeOp.reshape [Dim.known 3, Dim.known 4, Dim.known 2]] =
            [ShapeOp.reshape ungroupedShape]
            ++ (if (rhsFlat rhs).filter (fun a => lhsG.flatten.contains a) =
                  lhsG.flatten
                then []
                else [ShapeOp.transpose
                  (((rhsFlat rhs).filter
                      (fun a => lhsG.flatten.contains a)).map
                    (fun a => firstIdx a lhsG.flatten))])
            ++ (if bc = [] then [] else [ShapeOp.broadcast bc])
            ++ [ShapeOp.reshape outputShape] := by
  refine ⟨rfl, ?_⟩
  exact claim1_fixed_structure ['i', 'j', '-', '>', 'j', 'k', 'i']
    [Dim.known 2, Dim.known 3] [('k', Dim.known 4)] _ rfl

/-! ## Helper lemmas: the optimizer -/

theorem keepLast_cons (op : ShapeOp) (rest : List ShapeOp) :
    keepLastReshapes (op :: rest) =
      match keepLastReshapes rest with
      | next :: l =>
        if isReshape op && isReshape next then next :: l else op :: next :: l
      | [] => [op] := by
  show (match keepLastReshapes rest with
    | next :: _ =>
      if isReshape op && isReshape next then keepLastReshapes rest
      else op :: keepLastReshapes rest
    | [] => [op]) = _
  cases keepLastReshapes rest with
  | nil => rfl
  | cons next l => rfl

theorem noAdj_cons (op : ShapeOp) (rest : List ShapeOp) :
    noAdjacentReshapes (op :: rest) = true ↔
      (isReshape op && headReshape rest) = false
      ∧ noAdjacentReshapes rest = true := by
  show ((!(isReshape op && headReshape rest)) && noAdjacentReshapes rest) = true ↔ _
  constructor
  · intro h
    have h1 := Bool.and_elim_left h
    have h2 := Bool.and_elim_right h
    refine ⟨?_, h2⟩
    cases hx : (isReshape op && headReshape rest) with
    | false => rfl
    | true => rw [hx] at h1; exact absurd h1 (by decide)
  · intro hp
    rw [hp.1, hp.2]
    rfl

theorem elide1_head (op : ShapeOp) (rest : List ShapeOp) :
    ∃ h t, elideIntermediateReshapes (op :: rest) = h :: t
      ∧ isReshape h = isReshape op := by
  induction rest generalizing op with
  | nil => exact ⟨op, [], rfl, rfl⟩
  | cons next t ih =>
    by_cases hc : (isReshape op && isReshape next) = true
    · obtain ⟨h, t', hk, hh⟩ := ih next
      rw [elideIntermediateReshapes, if_pos hc]
      obtain ⟨h1, h2⟩ : isReshape op = true ∧ isReshape next = true := by
        simpa using hc
      exact ⟨h, t', hk, by rw [hh, h2, h1]⟩
    · rw [elideIntermediateReshapes, if_neg hc]
      exact ⟨op, _, rfl, rfl⟩

theorem elide1_eq_keepLast :
    ∀ ops : List ShapeOp,
      elideIntermediateReshapes ops = keepLastReshapes ops := by
  intro ops
  induction ops with
  | nil => rfl
  | cons op rest ih =>
    cases rest with
    | nil => rfl
    | cons next t =>
      rw [keepLast_cons, ← ih]
      obtain ⟨h, t', hk, hh⟩ := elide1_head next t
      rw [hk]
      rw [elideIntermediateReshapes, hk]
      have hcond : (isReshape op && isReshape next) = (isReshape op && isReshape h) := by
        rw [hh]
      rw [hcond]

theorem elide1_noAdj :
    ∀ ops : List ShapeOp,
      noAdjacentReshapes (elideIntermediateReshapes ops) = true := by
  intro ops
  induction ops with
  | nil => rfl
  | cons op rest ih =>
    cases rest with
    | nil => simp [elideIntermediateReshapes, noAdjacentReshapes, headReshape]
    | cons next t =>
      by_cases hc : (isReshape op && isReshape next) = true
      · rw [elideIntermediateReshapes, if_pos hc]
        exact ih
      · rw [elideIntermediateReshapes, if_neg hc]
        obtain ⟨h, t', hk, hh⟩ := elide1_head next t
        rw [hk]
        rw [hk] at ih
        rw [noAdj_cons]
        refine ⟨?_, ih⟩
        show (isReshape op && isReshape h) = false
        rw [hh]
        exact Bool.eq_false_iff.mpr hc

theorem elide1_id :
    ∀ ops : List ShapeOp, noAdjacentReshapes ops = true →
      elideIntermediateReshapes ops = ops := by
  intro ops
  induction ops with
  | nil => intro _; rfl
  | cons op rest ih =>
    intro hna
    cases rest with
    | nil => rfl
    | cons next t =>
      obtain ⟨ha, hb⟩ := (noAdj_cons op (next :: t)).mp hna
      have ha' : (isReshape op && isReshape next) = false := ha
      rw [elideIntermediateReshapes, if_neg (by simp [ha']), ih hb]

theorem elide1_sublist :
    ∀ ops : List ShapeOp, (elideIntermediateReshapes ops).Sublist ops := by
  intro ops
  induction ops with
  | nil => exact List.Sublist.refl _
  | cons op rest ih =>
    cases rest with
    | nil => exact List.Sublist.refl _
    | cons next t =>
      by_cases hc : (isReshape op && isReshape next) = true
      · rw [elideIntermediateReshapes, if_pos hc]
        exact ih.cons op
      · rw [elideIntermediateReshapes, if_neg hc]
        exact ih.cons₂ op

theorem elide1_filter_nonreshape :
    ∀ ops : List ShapeOp,
      (elideIntermediateReshapes ops).filter (fun op => !isReshape op) =
        ops.filter (fun op => !isReshape op) := by
  intro ops
  induction ops with
  | nil => rfl
  | cons op rest ih =>
    cases rest with
    | nil => rfl
    | cons next t =>
      by_cases hc : (isReshape op && isReshape next) = true
      · obtain ⟨h1, h2⟩ : isReshape op = true ∧ isReshape next = true := by
          simpa using hc
        rw [elideIntermediateReshapes, if_pos hc, ih]
        conv_rhs => rw [List.filter_cons]
        rw [if_neg (by simp [h1])]
      · rw [elideIntermediateReshapes, if_neg hc]
        rw [List.filter_cons, List.filter_cons, ih]

theorem shapesAlong_map_fst :
    ∀ (ops : List ShapeOp) (s : List Dim) (ann : List (ShapeOp × List Dim)),
      shapesAlong ops s = .ok ann → ann.map Prod.fst = ops := by
  intro ops
  induction ops with
  | nil =>
    intro s ann h
    simp only [shapesAlong] at h
    cases h
    rfl
  | cons op rest ih =>
    intro s ann h
    simp only [shapesAlong] at h
    cases ht : transformShape op s with
    | error e => simp only [ht] at h; cases h
    | ok s' =>
    simp only [ht] at h
    cases hrec : shapesAlong rest s' with
    | error e => simp only [hrec] at h; cases h
    | ok tail =>
    simp only [hrec] at h
    cases h
    simp [ih s' tail hrec]

theorem elideNoop_eq_filter :
    ∀ (ops : List ShapeOp) (s : List Dim) (r : List ShapeOp),
      elideNoopReshapes ops s = .ok r →
      ∃ ann, shapesAlong ops s = .ok ann
        ∧ r = (ann.filter fun p => !isNoopReshape p.1 p.2).map Prod.fst := by
  intro ops
  induction ops with
  | nil =>
    intro s r h
    simp only [elideNoopReshapes] at h
    cases h
    exact ⟨[], rfl, rfl⟩
  | cons op rest ih =>
    intro s r h
    simp only [elideNoopReshapes] at h
    cases ht : transformShape op s with
    | error e => simp only [ht] at h; cases h
    | ok s' =>
    simp only [ht] at h
    cases hrec : elideNoopReshapes rest s' with
    | error e => simp only [hrec] at h; cases h
    | ok tail =>
    simp only [hrec] at h
    cases h
    obtain ⟨ann, hann, htail⟩ := ih s' tail hrec
    refine ⟨(op, s) :: ann, by simp [shapesAlong, ht, hann], ?_⟩
    rw [List.filter_cons]
    by_cases hnoop : isNoopReshape op s = true
    · rw [if_pos hnoop] at *
      simp only [hnoop, if_true, Bool.not_true]
      simp only [Bool.false_eq_true, if_false]
      exact htail
    · have hnf : isNoopReshape op s = false := by simpa using hnoop
      simp only [hnf, Bool.false_eq_true, if_false, Bool.not_false, if_true,
        List.map_cons]
      rw [htail]

theorem elideNoop_sublist :
    ∀ (ops : List ShapeOp) (s : List Dim) (r : List ShapeOp),
      elideNoopReshapes ops s = .ok r → r.Sublist ops := by
  intro ops
  induction ops with
  | nil =>
    intro s r h
    simp only [elideNoopReshapes] at h
    cases h
    exact List.Sublist.refl _
  | cons op rest ih =>
    intro s r h
    simp only [elideNoopReshapes] at h
    cases ht : transformShape op s with
    | error e => simp only [ht] at h; cases h
    | ok s' =>
    simp only [ht] at h
    cases hrec : elideNoopReshapes rest s' with
    | error e => simp only [hrec] at h; cases h
    | ok tail =>
    simp only [hrec] at h
    cases h
    by_cases hnoop : isNoopReshape op s = true
    · rw [if_pos hnoop]
      exact (ih s' tail hrec).cons op
    · rw [if_neg hnoop]
      exact (ih s' tail hrec).cons₂ op

theorem elideNoop_filter_nonreshape :
    ∀ (ops : List ShapeOp) (s : List Dim) (r : List ShapeOp),
      elideNoopReshapes ops s = .ok r →
      r.filter (fun op => !isReshape op) =
        ops.filter (fun op => !isReshape op) := by
  intro ops
  induction ops with
  | nil =>
    intro s r h
    simp only [elideNoopReshapes] at h
    cases h
    rfl
  | cons op rest ih =>
    intro s r h
    simp only [elideNoopReshapes] at h
    cases ht : transformShape op s with
    | error e => simp only [ht] at h; cases h
    | ok s' =>
    simp only [ht] at h
    cases hrec : elideNoopReshapes rest s' with
    | error e => simp only [hrec] at h; cases h
    | ok tail =>
    simp only [hrec] at h
    cases h
    by_cases hnoop : isNoopReshape op s = true
    · rw [if_pos hnoop]
      have hre : isReshape op = true := by
        cases op with
        | reshape sh => rfl
        | transpose p => simp [isNoopReshape] at hnoop
        | broadcast b => simp [isNoopReshape] at hnoop
        | tile m => simp [isNoopReshape] at hnoop
      rw [ih s' tail hrec, List.filter_cons, if_neg (by simp [hre])]
    · rw [if_neg hnoop, List.filter_cons, List.filter_cons, ih s' tail hrec]

theorem noop_transform (op : ShapeOp) (s : List Dim)
    (h : isNoopReshape op s = true) : transformShape op s = .ok s := by
  cases op with
  | reshape sh =>
    simp only [isNoopReshape, Bool.and_eq_true, decide_eq_true_eq] at h
    rw [transformShape, h.2]
  | transpose p => simp [isNoopReshape] at h
  | broadcast b => simp [isNoopReshape] at h
  | tile m => simp [isNoopReshape] at h

theorem noop_isReshape (op : ShapeOp) (s : List Dim)
    (h : isNoopReshape op s = true) : isReshape op = true := by
  cases op with
  | reshape sh => rfl
  | transpose p => simp [isNoopReshape] at h
  | broadcast b => simp [isNoopReshape] at h
  | tile m => simp [isNoopReshape] at h

theorem elideNoop_headReshape :
    ∀ (ops : List ShapeOp) (s : List Dim) (r : List ShapeOp),
      elideNoopReshapes ops s = .ok r → headReshape r = true →
      headReshape ops = true := by
  intro ops
  induction ops with
  | nil =>
    intro s r h hr
    simp only [elideNoopReshapes] at h
    cases h
    cases hr
  | cons op rest ih =>
    intro s r h hr
    simp only [elideNoopReshapes] at h
    cases ht : transformShape op s with
    | error e => simp only [ht] at h; cases h
    | ok s' =>
    simp only [ht] at h
    cases hrec : elideNoopReshapes rest s' with
    | error e => simp only [hrec] at h; cases h
    | ok tail =>
    simp only [hrec] at h
    cases h
    by_cases hnoop : isNoopReshape op s = true
    · exact noop_isReshape op s hnoop
    · rw [if_neg hnoop] at hr
      exact hr

theorem elideNoop_noAdj :
    ∀ (ops : List ShapeOp) (s : List Dim) (r : List ShapeOp),
      elideNoopReshapes ops s = .ok r → noAdjacentReshapes ops = true →
      noAdjacentReshapes r = true := by
  intro ops
  induction ops with
  | nil =>
    intro s r h _
    simp only [elideNoopReshapes] at h
    cases h
    rfl
  | cons op rest ih =>
    intro s r h hna
    obtain ⟨ha, hb⟩ := (noAdj_cons op rest).mp hna
    simp only [elideNoopReshapes] at h
    cases ht : transformShape op s with
    | error e => simp only [ht] at h; cases h
    | ok s' =>
    simp only [ht] at h
    cases hrec : elideNoopReshapes rest s' with
    | error e => simp only [hrec] at h; cases h
    | ok tail =>
    simp only [hrec] at h
    cases h
    have htail := ih s' tail hrec hb
    by_cases hnoop : isNoopReshape op s = true
    · rw [if_pos hnoop]
      exact htail
    · rw [if_neg hnoop]
      rw [noAdj_cons]
      refine ⟨?_, htail⟩
      cases hro : isReshape op with
      | false => rfl
      | true =>
        cases hrt : headReshape tail with
        | false => simp
        | true =>
          have := elideNoop_headReshape rest s' tail hrec hrt
          rw [hro, this] at ha
          cases ha

theorem elideNoop_idem :
    ∀ (ops : List ShapeOp) (s : List Dim) (r : List ShapeOp),
      elideNoopReshapes ops s = .ok r → elideNoopReshapes r s = .ok r := by
  intro ops
  induction ops with
  | nil =>
    intro s r h
    simp only [elideNoopReshapes] at h
    cases h
    rfl
  | cons op rest ih =>
    intro s r h
    simp only [elideNoopReshapes] at h
    cases ht : transformShape op s with
    | error e => simp only [ht] at h; cases h
    | ok s' =>
    simp only [ht] at h
    cases hrec : elideNoopReshapes rest s' with
    | error e => simp only [hrec] at h; cases h
    | ok tail =>
    simp only [hrec] at h
    cases h
    have htail := ih s' tail hrec
    by_cases hnoop : isNoopReshape op s = true
    · rw [if_pos hnoop]
      have hs : s' = s := by
        have := noop_transform op s hnoop
        rw [this] at ht
        cases ht
        rfl
      rw [← hs]
      exact htail
    · rw [if_neg hnoop]
      simp only [elideNoopReshapes, ht, htail]
      rw [if_neg hnoop]

/-- Claim C5: the optimizer drops the earlier `Reshape` of every directly
adjacent pair so that only the last `Reshape` of any maximal run survives
(pass 1 equals the keep-last-of-run description and leaves no adjacent
reshapes); pass 2 keeps exactly the operations that are not concrete no-op
reshapes at their tracked input shape; only a `Reshape` whose input and
target shapes are both fully static (no symbolic dimension) and equal can be
a no-op; and the result is a subsequence of the input preserving every
non-`Reshape` operation (`Transpose` and `Broadcast` are never dropped or
altered). -/
theorem claim5_optimizer_passes :
    (∀ ops : List ShapeOp,
      elideIntermediateReshapes ops = keepLastReshapes ops)
    ∧ (∀ ops : List ShapeOp,
        noAdjacentReshapes (elideIntermediateReshapes ops) = true)
    ∧ (∀ (ops : List ShapeOp) (s : List Dim) (r : List ShapeOp),
        elideNoopReshapes ops s = .ok r →
        ∃ ann, shapesAlong ops s = .ok ann
          ∧ r = (ann.filter fun p => !isNoopReshape p.1 p.2).map Prod.fst)
    ∧ (∀ (op : ShapeOp) (s : List Dim),
        isReshape op = false → isNoopReshape op s = false)
    ∧ (∀ (sh s : List Dim), isStatic s = false ∨ isStatic sh = false →
        isNoopReshape (.reshape sh) s = false)
    ∧ (∀ (ops : List ShapeOp) (s : List Dim) (r : List ShapeOp),
        optimize ops s = .ok r →
        r.Sublist ops
        ∧ r.filter (fun op => !isReshape op) =
            ops.filter (fun op => !isReshape op)) := by
  refine ⟨elide1_eq_keepLast, elide1_noAdj, elideNoop_eq_filter, ?_, ?_, ?_⟩
  · intro op s hop
    cases op with
    | reshape sh => cases hop
    | transpose p => rfl
    | broadcast b => rfl
    | tile m => rfl
  · intro sh s h
    cases h with
    | inl h => simp [isNoopReshape, h]
    | inr h => simp [isNoopReshape, h]
  · intro ops s r h
    unfold optimize at h
    constructor
    · exact (elideNoop_sublist _ s r h).trans (elide1_sublist ops)
    · rw [elideNoop_filter_nonreshape _ s r h, elide1_filter_nonreshape]

/-- Witness for C5 on `[Reshape [5], Reshape [2], Transpose [0], Reshape [2]]`
with input shape `[2]`: pass 1 drops the first reshape, pass 2 drops the
no-op reshapes, and the transpose survives. -/
theorem claim5_witness :
    ([ShapeOp.transpose [0]] : List ShapeOp).Sublist
        [ShapeOp.reshape [Dim.known 5], ShapeOp.reshape [Dim.known 2],
         ShapeOp.transpose [0], ShapeOp.reshape [Dim.known 2]]
    ∧ ([ShapeOp.transpose [0]] : List ShapeOp).filter
          (fun op => !isReshape op) =
        ([ShapeOp.reshape [Dim.known 5], ShapeOp.reshape [Dim.known 2],
          ShapeOp.transpose [0],
          ShapeOp.reshape [Dim.known 2]].filter fun op => !isReshape op) :=
  claim5_optimizer_passes.2.2.2.2.2
    [ShapeOp.reshape [Dim.known 5], ShapeOp.reshape [Dim.known 2],
     ShapeOp.transpose [0], ShapeOp.reshape [Dim.known 2]]
    [Dim.known 2] [ShapeOp.transpose [0]] rfl

/-- Claim C6: `optimize` is idempotent. -/
theorem claim6_optimize_idempotent (ops : List ShapeOp) (s : List Dim)
    (r : List ShapeOp) (h : optimize ops s = .ok r) :
    optimize r s = .ok r := by
  unfold optimize at h ⊢
  have hna : noAdjacentReshapes (elideIntermediateReshapes ops) = true :=
    elide1_noAdj ops
  have hnar : noAdjacentReshapes r = true :=
    elideNoop_noAdj _ s r h hna
  rw [elide1_id r hnar]
  exact elideNoop_idem _ s r h

/-- Witness for C6 on a sequence with adjacent and no-op reshapes. -/
theorem claim6_witness :
    optimize
        [ShapeOp.reshape [Dim.known 6], ShapeOp.reshape [Dim.known 2, Dim.known 3],
         ShapeOp.transpose [1, 0], ShapeOp.reshape [Dim.known 3, Dim.known 2]]
        [Dim.known 2, Dim.known 3] =
      .ok [ShapeOp.transpose [1, 0]]
    ∧ optimize [ShapeOp.transpose [1, 0]] [Dim.known 2, Dim.known 3] =
      .ok [ShapeOp.transpose [1, 0]] := by
  refine ⟨rfl, ?_⟩
  exact claim6_optimize_idempotent
    [ShapeOp.reshape [Dim.known 6], ShapeOp.reshape [Dim.known 2, Dim.known 3],
     ShapeOp.transpose [1, 0], ShapeOp.reshape [Dim.known 3, Dim.known 2]]
    [Dim.known 2, Dim.known 3] [ShapeOp.transpose [1, 0]] rfl

/-! ## Helper lemmas for the identity law (claim C3) -/

theorem toLower_of_isLower (c : Char) (h : c.isLower = true) :
    c.toLower = c := by
  have h97 : (97 : UInt32) ≤ c.val := by
    simpa [Char.isLower] using (Bool.and_elim_left h)
  rw [Char.toLower, if_neg]
  intro hcon
  have h2 : c.toNat ≤ 90 := hcon.2
  have h3 : (97 : UInt32).toNat ≤ c.val.toNat := h97
  rw [show (97 : UInt32).toNat = 97 from rfl] at h3
  rw [Char.toNat] at h2
  omega

theorem splitOnArrow_no_dash :
    ∀ l : List Char, '-' ∉ l → splitOnArrow l = [l] := by
  intro l
  induction l with
  | nil => intro _; rfl
  | cons c rest ih =>
    intro h
    have hc : c ≠ '-' := fun he => h (he ▸ List.mem_cons_self c rest)
    have hrest : '-' ∉ rest := fun hm => h (List.mem_cons_of_mem c hm)
    cases rest with
    | nil => rfl
    | cons c2 t =>
      rw [splitOnArrow, if_neg (fun hp => hc hp.1), ih hrest]

theorem splitOnArrow_arrow :
    ∀ l : List Char, '-' ∉ l → ∀ tail : List Char,
      splitOnArrow (l ++ '-' :: '>' :: tail) = l :: splitOnArrow tail := by
  intro l
  induction l with
  | nil =>
    intro _ tail
    rw [List.nil_append, splitOnArrow, if_pos ⟨rfl, rfl⟩]
  | cons c rest ih =>
    intro h tail
    have hc : c ≠ '-' := fun he => h (he ▸ List.mem_cons_self c rest)
    have hrest : '-' ∉ rest := fun hm => h (List.mem_cons_of_mem c hm)
    cases rest with
    | nil =>
      rw [show ((c :: []) ++ '-' :: '>' :: tail) = c :: '-' :: '>' :: tail
          from rfl,
        splitOnArrow, if_neg (fun hp => hc hp.1), splitOnArrow,
        if_pos ⟨rfl, rfl⟩]
    | cons c2 t =>
      rw [show ((c :: c2 :: t) ++ '-' :: '>' :: tail) =
          c :: ((c2 :: t) ++ '-' :: '>' :: tail) from rfl]
      rw [show ((c2 :: t) ++ '-' :: '>' :: tail) =
          c2 :: (t ++ '-' :: '>' :: tail) from rfl]
      rw [splitOnArrow, if_neg (fun hp => hc hp.1)]
      rw [show (c2 :: (t ++ '-' :: '>' :: tail)) =
          (c2 :: t) ++ '-' :: '>' :: tail from rfl]
      rw [ih hrest tail]

theorem map_id_of_mem {α : Type} :
    ∀ (l : List α) (f : α → α), (∀ a ∈ l, f a = a) → l.map f = l := by
  intro l f
  induction l with
  | nil => intro _; rfl
  | cons a rest ih =>
    intro h
    rw [List.map_cons, h a (List.mem_cons_self a rest),
      ih fun b hb => h b (List.mem_cons_of_mem a hb)]

theorem groupDims_alpha :
    ∀ (e : List Char) (acc : List (List Char)),
      (∀ c ∈ e, c.isAlpha = true) →
      groupDimensionsGo e none acc = .ok (acc ++ e.map fun c => [c]) := by
  intro e
  induction e with
  | nil => intro acc _; simp [groupDimensionsGo]
  | cons c rest ih =>
    intro acc h
    rw [go_cons_alpha c (h c (List.mem_cons_self c rest)),
      ih (acc ++ [[c]]) fun b hb => h b (List.mem_cons_of_mem c hb)]
    simp

theorem flatten_singletons :
    ∀ e : List Char, (e.map fun c => [c]).flatten = e := by
  intro e
  induction e with
  | nil => rfl
  | cons c rest ih => simp [ih]

theorem marker_not_mem_singletons (e : List Char) :
    wildcardMarker ∉ (e.map fun c => [c]) := by
  intro hm
  rw [List.mem_map] at hm
  obtain ⟨c, _, hc⟩ := hm
  cases hc

theorem lookup_of_mem_nodupKeys :
    ∀ (M : SizeMap), (M.map Prod.fst).Nodup →
      ∀ (c : Char) (v : Dim), (c, v) ∈ M → List.lookup c M = some v := by
  intro M
  induction M with
  | nil => intro _ c v hm; cases hm
  | cons p rest ih =>
    obtain ⟨a, w⟩ := p
    intro hnd c v hm
    rw [List.map_cons, List.nodup_cons] at hnd
    cases List.mem_cons.mp hm with
    | inl he =>
      injection he with h1 h2
      subst h1; subst h2
      simp [List.lookup]
    | inr hr =>
      have hca : c ≠ a := by
        intro he
        subst he
        exact hnd.1 (List.mem_map.mpr ⟨(c, v), hr, rfl⟩)
      have hba : (c == a) = false := by simpa using hca
      rw [List.lookup, hba]
      exact ih hnd.2 c v hr

theorem lookupAll_pointwise :
    ∀ (l : List Char) (ds : List Dim) (M : SizeMap),
      l.length = ds.length →
      (∀ p ∈ l.zip ds, List.lookup p.1 M = some p.2) →
      lookupAll M l = .ok ds := by
  intro l
  induction l with
  | nil =>
    intro ds M hlen _
    cases ds with
    | nil => rfl
    | cons d ds' => cases hlen
  | cons c rest ih =>
    intro ds M hlen h
    cases ds with
    | nil => cases hlen
    | cons d ds' =>
      rw [lookupAll, h (c, d) (by simp [List.zip_cons_cons]),
        ih ds' M (by simpa using hlen)
          fun p hp => h p (by simp [List.zip_cons_cons, hp])]

theorem solveGroup_single (acc : SizeMap) (c : Char) (n : Int) :
    solveGroup [] acc [c] (Dim.known n) = .ok ((c, Dim.known n) :: acc) := by
  simp [solveGroup, scanGroupGo, Dim.mod, Dim.fdiv, Int.fmod_one,
    Int.fdiv_one, mapInsert, List.lookup]

theorem solve_singletons :
    ∀ (e : List Char) (ns : List Int) (acc : SizeMap),
      solveSizesGo [] (e.map fun c => [c]) (ns.map Dim.known) acc =
        .ok ((((e.zip ns).map fun p => (p.1, Dim.known p.2)).reverse) ++ acc) := by
  intro e
  induction e with
  | nil => intro ns acc; simp [solveSizesGo]
  | cons c rest ih =>
    intro ns acc
    cases ns with
    | nil => simp [solveSizesGo]
    | cons n ns' =>
      simp only [List.map_cons, solveSizesGo, solveGroup_single]
      rw [ih ns' ((c, Dim.known n) :: acc)]
      simp

theorem scanRhsGo_all (ungrouped : List Char) (M : SizeMap) :
    ∀ (l : List (Nat × Char)) (tr0 : List Char) (bc0 : List (Nat × Dim)),
      (∀ p ∈ l, ungrouped.contains p.2 = true) →
      scanRhsGo ungrouped M l (tr0, bc0) = .ok (tr0 ++ l.map Prod.snd, bc0) := by
  intro l
  induction l with
  | nil => intro tr0 bc0 _; simp [scanRhsGo]
  | cons p rest ih =>
    obtain ⟨i, a⟩ := p
    intro tr0 bc0 h
    rw [scanRhsGo, if_pos (h (i, a) (List.mem_cons_self _ rest)),
      ih (tr0 ++ [a]) bc0 fun q hq => h q (List.mem_cons_of_mem _ hq)]
    simp

theorem rhsFlat_alpha (e : List Char) (h : ∀ c ∈ e, c.isAlpha = true) :
    rhsFlat e = e := by
  rw [rhsFlat, List.filter_eq_self]
  intro c hc
  have ha := h c hc
  have h1 : c ≠ '1' := by intro he; rw [he] at ha; cases ha
  have h2 : c ≠ '(' := by intro he; rw [he] at ha; cases ha
  have h3 : c ≠ ')' := by intro he; rw [he] at ha; cases ha
  simp [h1, h2, h3]

theorem outputShapeGo_singletons :
    ∀ (gs : List Char) (ds : List Int) (M : SizeMap)
      (dict : List (List Char × Dim)),
      gs.length = ds.length →
      (∀ p ∈ gs.zip ds, List.lookup p.1 M = some (Dim.known p.2)) →
      outputShapeGo M dict (gs.map fun c => [c]) = .ok (ds.map Dim.known) := by
  intro gs
  induction gs with
  | nil =>
    intro ds M dict hlen _
    cases ds with
    | nil => rfl
    | cons d ds' => cases hlen
  | cons c rest ih =>
    intro ds M dict hlen h
    cases ds with
    | nil => cases hlen
    | cons n ds' =>
      rw [List.map_cons, outputShapeGo]
      have hs : groupSize M dict [c] = .ok (Dim.known n) := by
        simp [groupSize, groupProdGo, h (c, n) (by simp [List.zip_cons_cons]),
          Dim.mul]
      rw [hs, ih ds' M dict (by simpa using hlen)
        fun p hp => h p (by simp [List.zip_cons_cons, hp]), List.map_cons]

theorem isStatic_map_known (ns : List Int) :
    isStatic (ns.map Dim.known) = true := by
  rw [isStatic, List.all_eq_true]
  intro d hd
  obtain ⟨n, _, hn⟩ := List.mem_map.mp hd
  rw [← hn]
  rfl

/-- Claim C3, the identity law: for an equation `e->e` with `e` a string of
pairwise-distinct lower-case letters and a concrete integer input shape of
matching rank, synthesis followed by optimisation yields the empty operation
sequence. -/
theorem claim3_identity_law (e : List Char) (ns : List Int)
    (hlower : ∀ c ∈ e, c.isLower = true)
    (hnodup : e.Nodup) (hlen : ns.length = e.length) :
    compileEquation (e ++ '-' :: '>' :: e) (ns.map Dim.known) [] = .ok [] := by
  have halpha : ∀ c ∈ e, c.isAlpha = true := by
    intro c hc
    have := hlower c hc
    simp [Char.isAlpha, this]
  have hnodash : '-' ∉ e := by
    intro hm
    exact absurd (hlower '-' hm) (by decide)
  have hlow : (e ++ '-' :: '>' :: e).map Char.toLower = e ++ '-' :: '>' :: e := by
    have he : e.map Char.toLower = e :=
      map_id_of_mem e Char.toLower fun c hc => toLower_of_isLower c (hlower c hc)
    rw [List.map_append, he, List.map_cons, List.map_cons, he]
    rfl
  have hsplit : splitOnArrow (e ++ '-' :: '>' :: e) = [e, e] := by
    rw [splitOnArrow_arrow e hnodash e, splitOnArrow_no_dash e hnodash]
  have hgroup : groupDimensions e = .ok (e.map fun c => [c]) := by
    have := groupDims_alpha e [] halpha
    simpa [groupDimensions] using this
  have hgen : generateOps (e ++ '-' :: '>' :: e) (ns.map Dim.known) [] =
      generateOpsGrouped e (e.map fun c => [c]) (ns.map Dim.known) [] := by
    unfold generateOps
    rw [if_neg (by rw [hlow]; exact fun hne => hne rfl)]
    rw [hsplit]
    simp only [hgroup]
    rw [if_neg (marker_not_mem_singletons e),
      if_neg (by simp [hlen])]
  -- the solved size map
  set M : SizeMap := ((e.zip ns).map fun p => (p.1, Dim.known p.2)).reverse with hM
  have hkeys : (M.map Prod.fst).Nodup := by
    rw [hM, List.map_reverse, List.nodup_reverse,
      List.map_map]
    have : ((e.zip ns).map (Prod.fst ∘ fun p => (p.1, Dim.known p.2))) =
        (e.zip ns).map Prod.fst := rfl
    rw [this, List.map_fst_zip e ns (by omega)]
    exact hnodup
  have hmemlook : ∀ p ∈ e.zip ns, List.lookup p.1 M = some (Dim.known p.2) := by
    intro p hp
    exact lookup_of_mem_nodupKeys M hkeys p.1 (Dim.known p.2)
      (by
        rw [hM, List.mem_reverse, List.mem_map]
        exact ⟨p, hp, rfl⟩)
  have hsolve : solveSizes [] (e.map fun c => [c]) (ns.map Dim.known) =
      .ok M := by
    rw [solveSizes, solve_singletons e ns []]
    simp [hM]
  have hlookupAll : lookupAll M e = .ok (ns.map Dim.known) := by
    refine lookupAll_pointwise e (ns.map Dim.known) M (by simp [hlen]) ?_
    intro p hp
    rw [List.zip_map_right] at hp
    obtain ⟨q, hq, hpq⟩ := List.mem_map.mp hp
    rw [← hpq]
    exact hmemlook q hq
  have hflat : rhsFlat e = e := rhsFlat_alpha e halpha
  have henumsnd : ∀ p ∈ e.enum, p.2 ∈ e := by
    intro p hp
    have h1 : (e.enum.map Prod.snd) = e := by simp [List.enum]
    rw [← h1]
    exact List.mem_map.mpr ⟨p, hp, rfl⟩
  have hscan : scanRhs e M e = .ok (e, []) := by
    rw [scanRhs, scanRhsGo_all e M e.enum [] []
      fun p hp => by simpa using henumsnd p hp]
    simp [List.enum]
  have hout : outputShapeGo M
      (groupSizeDict (e.map fun c => [c]) (ns.map Dim.known))
      (e.map fun c => [c]) = .ok (ns.map Dim.known) :=
    outputShapeGo_singletons e ns M _ (by omega) hmemlook
  have hgrouped : generateOpsGrouped e (e.map fun c => [c])
      (ns.map Dim.known) [] =
      .ok [ShapeOp.reshape (ns.map Dim.known),
           ShapeOp.reshape (ns.map Dim.known)] := by
    unfold generateOpsGrouped
    simp only [hsolve, flatten_singletons, hlookupAll, hflat, hscan, hgroup,
      hout]
    rw [if_neg (fun hne => hne rfl)]
    simp
  unfold compileEquation
  simp only [hgen, hgrouped]
  show optimize [ShapeOp.reshape (ns.map Dim.known),
      ShapeOp.reshape (ns.map Dim.known)] (ns.map Dim.known) = .ok []
  simp [optimize, elideIntermediateReshapes, elideNoopReshapes,
    transformShape, isNoopReshape, isStatic_map_known, isReshape]

/-- Witness for C3 at the spec's two examples: `"->"` on shape `[]` and
`"ijkl->ijkl"` on shape `[2, 3, 5, 7]` both compile to the empty sequence. -/
theorem claim3_witness :
    compileEquation (([] : List Char) ++ '-' :: '>' :: []) [] [] = .ok []
    ∧ compileEquation
        (['i', 'j', 'k', 'l'] ++ '-' :: '>' :: ['i', 'j', 'k', 'l'])
        (([2, 3, 5, 7] : List Int).map Dim.known) [] = .ok [] :=
  ⟨claim3_identity_law [] [] (by decide) (by decide) rfl,
   claim3_identity_law ['i', 'j', 'k', 'l'] [2, 3, 5, 7] (by decide)
     (by decide) rfl⟩

/-! ## Helper lemmas for the broadcast rewrite (claim C8) -/

theorem unflatten_length :
    ∀ (s : List Nat) (n : Nat), (unflatten s n).length = s.length := by
  intro s
  induction s with
  | nil => intro n; rfl
  | cons d ds ih => intro n; simp [unflatten, ih]

/-- Splitting a row-major decode at a list append. -/
theorem unflatten_append :
    ∀ (xs ys : List Nat) (n : Nat), n < (xs ++ ys).prod →
      unflatten (xs ++ ys) n =
        unflatten xs (n / ys.prod) ++ unflatten ys (n % ys.prod) := by
  intro xs
  induction xs with
  | nil =>
    intro ys n hn
    rw [List.nil_append] at hn
    simp [unflatten, Nat.mod_eq_of_lt hn]
  | cons d ds ih =>
    intro ys n hn
    rw [List.cons_append, List.prod_cons] at hn
    have hys : (ds ++ ys).prod = ds.prod * ys.prod := by
      rw [List.prod_append]
    have hpos : 0 < (ds ++ ys).prod := by
      rcases Nat.eq_zero_or_pos ((ds ++ ys).prod) with h0 | h
      · rw [h0, Nat.mul_zero] at hn; cases hn
      · exact h
    rw [List.cons_append, unflatten, unflatten, List.cons_append]
    congr 1
    · rw [hys, Nat.div_div_eq_div_mul, Nat.mul_comm ys.prod ds.prod]
    · have hlt : n % (ds ++ ys).prod < (ds ++ ys).prod := Nat.mod_lt _ hpos
      rw [ih ys (n % (ds ++ ys).prod) hlt]
      have hd2 : n % (ds ++ ys).prod % ys.prod = n % ys.prod := by
        rw [hys]
        exact Nat.mod_mod_of_dvd n ⟨ds.prod, Nat.mul_comm ds.prod ys.prod⟩
      have hd3 : n % (ds ++ ys).prod / ys.prod = n / ys.prod % ds.prod := by
        rw [hys, Nat.mul_comm ds.prod ys.prod, Nat.mod_mul_right_div_self]
      rw [hd2, hd3]

theorem removePos_append (keys : List Nat) :
    ∀ (xs ys : List Nat) (p : Nat),
      removePos keys (xs ++ ys) p =
        removePos keys xs p ++ removePos keys ys (p + xs.length) := by
  intro xs
  induction xs with
  | nil => intro ys p; simp [removePos]
  | cons x xs' ih =>
    intro ys p
    rw [List.cons_append, removePos, removePos, ih ys (p + 1)]
    have : p + 1 + xs'.length = p + (xs'.length + 1) := by omega
    rw [this]
    by_cases hc : keys.contains p = true
    · rw [if_pos hc, if_pos hc]
      rfl
    · rw [if_neg hc, if_neg hc]
      rfl

theorem removePos_all_in (keys : List Nat) :
    ∀ (xs : List Nat) (p : Nat),
      (∀ i, i < xs.length → keys.contains (p + i) = true) →
      removePos keys xs p = [] := by
  intro xs
  induction xs with
  | nil => intro p _; rfl
  | cons x xs' ih =>
    intro p h
    rw [removePos, if_pos (by simpa using h 0 (Nat.succ_pos _))]
    exact ih (p + 1) fun i hi => by
      have := h (i + 1) (by simp only [List.length_cons]; omega)
      rw [show p + (i + 1) = p + 1 + i from by omega] at this
      exact this

theorem removePos_none_in (keys : List Nat) :
    ∀ (xs : List Nat) (p : Nat),
      (∀ i, i < xs.length → keys.contains (p + i) = false) →
      removePos keys xs p = xs := by
  intro xs
  induction xs with
  | nil => intro p _; rfl
  | cons x xs' ih =>
    intro p h
    have h0 : keys.contains p = false := by
      have := h 0 (Nat.succ_pos _)
      simpa using this
    rw [removePos, if_neg (by simpa using h0)]
    rw [ih (p + 1) fun i hi => by
      have := h (i + 1) (by simp only [List.length_cons]; omega)
      rw [show p + (i + 1) = p + 1 + i from by omega] at this
      exact this]

theorem contains_blockKeys (m : Nat) (ks : List Nat) (q : Nat) :
    (List.range m ++ ks.map (· + (m + 1))).contains q =
      if q < m then true
      else if q = m then false
      else ks.contains (q - (m + 1)) := by
  by_cases h1 : q < m
  · rw [if_pos h1]
    simp [List.mem_range, h1]
  · rw [if_neg h1]
    by_cases h2 : q = m
    · rw [if_pos h2]
      subst h2
      simp [List.mem_range]
      omega
    · rw [if_neg h2, Bool.eq_iff_iff]
      constructor
      · intro hc
        have hm : q ∈ List.range m ++ ks.map (· + (m + 1)) := by simpa using hc
        rw [List.mem_append] at hm
        cases hm with
        | inl h => rw [List.mem_range] at h; omega
        | inr h =>
          obtain ⟨k, hk, he⟩ := List.mem_map.mp h
          have hqk : q - (m + 1) = k := by omega
          rw [hqk]
          simpa using hk
      · intro hc
        have hk : q - (m + 1) ∈ ks := by simpa using hc
        have hor : q < m ∨ ∃ a ∈ ks, a + (m + 1) = q :=
          Or.inr ⟨q - (m + 1), hk, by omega⟩
        simpa using hor

theorem insertClampN_append_big (pre l : List Nat) (pos : Nat) (v : Nat)
    (h : pre.length ≤ pos) :
    insertClampN (pre ++ l) pos v = pre ++ insertClampN l (pos - pre.length) v := by
  rw [insertClampN, insertClampN, List.take_append_eq_append_take,
    List.drop_append_eq_append_drop, List.take_of_length_le (by omega),
    List.drop_of_length_le (by omega)]
  simp

theorem flatPos_append_one :
    ∀ (xs is : List Nat), is.length = xs.length →
      flatPos (xs ++ [1]) (is ++ [0]) = flatPos xs is := by
  intro xs
  induction xs with
  | nil =>
    intro is h
    rw [List.length_nil] at h
    rw [List.eq_nil_of_length_eq_zero h]
    rfl
  | cons d ds ih =>
    intro is h
    cases is with
    | nil => cases h
    | cons i is' =>
      rw [List.cons_append, List.cons_append, flatPos, flatPos,
        ih is' (by simpa using h)]
      rw [List.prod_append]
      simp

/-- The tiled shape and the interleaved output shape have the same number of
elements. -/
theorem prod_tiled_eq_join :
    ∀ ps : List (List Nat × Nat), (tiledShape ps).prod = (joinShape ps).prod := by
  intro ps
  induction ps with
  | nil => rfl
  | cons p rest ih =>
    obtain ⟨g, d⟩ := p
    rw [tiledShape, joinShape] at *
    rw [List.map_cons, List.prod_cons, List.foldr_cons]
    rw [List.prod_append, List.prod_cons, ih]
    ring

/-- Tile semantics in block form: decoding a flat position in the tiled
shape and reducing each coordinate modulo its base axis gives exactly the
base coordinates of that position in the interleaved output shape. -/
theorem tile_coords_eq_baseCoords :
    ∀ (ps : List (List Nat × Nat)) (n : Nat), n < (joinShape ps).prod →
      List.zipWith (fun i d => i % d) (unflatten (tiledShape ps) n)
          (baseShapeOf ps) =
        baseCoordsOf ps n := by
  intro ps
  induction ps with
  | nil => intro n _; rfl
  | cons p rest ih =>
    obtain ⟨g, d⟩ := p
    intro n hn
    have hPP : (tiledShape rest).prod = (joinShape rest).prod :=
      prod_tiled_eq_join rest
    have hpos : 0 < (joinShape rest).prod := by
      rcases Nat.eq_zero_or_pos ((joinShape rest).prod) with h0 | h
      · exfalso
        have : (joinShape ((g, d) :: rest)).prod = 0 := by
          show (g ++ d :: joinShape rest).prod = 0
          rw [List.prod_append, List.prod_cons, h0]
          ring
        rw [this] at hn
        cases hn
      · exact h
    show List.zipWith (fun i d => i % d)
        (unflatten ((g.prod * d) :: tiledShape rest) n) (d :: baseShapeOf rest) =
      ((n / (joinShape rest).prod) % d) :: baseCoordsOf rest (n % (joinShape rest).prod)
    rw [unflatten, List.zipWith_cons_cons, hPP]
    congr 1
    rw [ih (n % (joinShape rest).prod) (Nat.mod_lt _ hpos)]

theorem removePos_shift (m : Nat) (ks : List Nat) :
    ∀ (ys : List Nat) (i : Nat),
      removePos (List.range m ++ ks.map (· + (m + 1))) ys ((m + 1) + i) =
        removePos ks ys i := by
  intro ys
  induction ys with
  | nil => intro i; rfl
  | cons y ys' ih =>
    intro i
    have hc : (List.range m ++ ks.map (· + (m + 1))).contains ((m + 1) + i) =
        ks.contains i := by
      rw [contains_blockKeys, if_neg (by omega), if_neg (by omega)]
      congr 1
      omega
    rw [removePos, removePos, hc,
      show (m + 1) + i + 1 = (m + 1) + (i + 1) from by omega, ih (i + 1)]

theorem removePos_block (m : Nat) (ks : List Nat) (xs : List Nat) (c : Nat)
    (ys : List Nat) (hxs : xs.length = m) :
    removePos (List.range m ++ ks.map (· + (m + 1))) (xs ++ c :: ys) 0 =
      c :: removePos ks ys 0 := by
  rw [removePos_append, removePos_all_in _ xs 0
    (fun i hi => by
      rw [contains_blockKeys, if_pos (by omega)]),
    List.nil_append, hxs]
  rw [removePos, if_neg (by
    rw [contains_blockKeys, if_neg (by omega), if_pos (Nat.zero_add m)]
    simp)]
  rw [show (0 : Nat) + m + 1 = (m + 1) + 0 from by omega, removePos_shift]

/-- Broadcast semantics in block form: decoding a flat position in the
interleaved output shape and removing the coordinates of the inserted axes
gives exactly the base coordinates. -/
theorem remove_keys_eq_baseCoords :
    ∀ (ps : List (List Nat × Nat)) (n : Nat), n < (joinShape ps).prod →
      removePos (keysOf ps) (unflatten (joinShape ps) n) 0 = baseCoordsOf ps n := by
  intro ps
  induction ps with
  | nil => intro n _; rfl
  | cons p rest ih =>
    obtain ⟨g, d⟩ := p
    intro n hn
    have hJ : joinShape ((g, d) :: rest) = (g ++ [d]) ++ joinShape rest := by
      show g ++ d :: joinShape rest = (g ++ [d]) ++ joinShape rest
      rw [List.append_assoc]
      rfl
    have hprod : (joinShape ((g, d) :: rest)).prod =
        (g ++ [d]).prod * (joinShape rest).prod := by
      rw [hJ, List.prod_append]
    have hpos : 0 < (joinShape rest).prod := by
      rcases Nat.eq_zero_or_pos ((joinShape rest).prod) with h0 | h
      · rw [hprod, h0, Nat.mul_zero] at hn; cases hn
      · exact h
    have hB : n / (joinShape rest).prod < (g ++ [d]).prod := by
      rw [Nat.div_lt_iff_lt_mul hpos]
      rw [hprod] at hn
      exact hn
    have hsplit1 : unflatten (joinShape ((g, d) :: rest)) n =
        unflatten (g ++ [d]) (n / (joinShape rest).prod) ++
          unflatten (joinShape rest) (n % (joinShape rest).prod) := by
      rw [hJ, unflatten_append _ _ n (by rw [← hJ]; exact hn)]
    have hsplit2 : unflatten (g ++ [d]) (n / (joinShape rest).prod) =
        unflatten g (n / (joinShape rest).prod / d) ++
          [n / (joinShape rest).prod % d] := by
      rw [unflatten_append g [d] _ (by simpa using hB)]
      congr 1
      · congr 1
        simp
      · show unflatten [d] (n / (joinShape rest).prod % List.prod [d]) = _
        simp [unflatten]
    rw [hsplit1, hsplit2]
    show removePos (List.range g.length ++ (keysOf rest).map (· + (g.length + 1)))
        ((unflatten g (n / (joinShape rest).prod / d) ++
          [n / (joinShape rest).prod % d]) ++
          unflatten (joinShape rest) (n % (joinShape rest).prod)) 0 = _
    rw [List.append_assoc, List.singleton_append,
      removePos_block g.length (keysOf rest) _ _ _ (unflatten_length g _),
      ih (n % (joinShape rest).prod) (Nat.mod_lt _ hpos)]
    rfl

/-- `consume` splits off exactly the leading run of consecutive keys starting
at `c`; the remainder's keys jump past the run. -/
theorem consume_spec :
    ∀ (bc : List (Nat × Nat)) (c : Nat),
      List.Chain' (· < ·) (bc.map Prod.fst) →
      (∀ q ∈ bc.map Prod.fst, c ≤ q) →
      bc = (List.range' c (consume bc c).1.length).zip (consume bc c).1
          ++ (consume bc c).2
      ∧ (∀ q ∈ (consume bc c).2.map Prod.fst,
          c + (consume bc c).1.length + 1 ≤ q)
      ∧ List.Chain' (· < ·) ((consume bc c).2.map Prod.fst) := by
  intro bc
  induction bc with
  | nil =>
    intro c _ _
    refine ⟨rfl, ?_, ?_⟩ <;> simp [consume]
  | cons e rest ih =>
    obtain ⟨k, v⟩ := e
    intro c hch hlb
    rw [List.map_cons] at hch
    have hpw : List.Pairwise (· < ·) (k :: rest.map Prod.fst) :=
      List.chain'_iff_pairwise.mp hch
    by_cases hk : k = c
    · subst hk
      have hch' : List.Chain' (· < ·) (rest.map Prod.fst) := hch.tail
      have hlb' : ∀ q ∈ rest.map Prod.fst, k + 1 ≤ q := by
        intro q hq
        have := (List.pairwise_cons.mp hpw).1 q hq
        omega
      obtain ⟨h1, h2, h3⟩ := ih (k + 1) hch' hlb'
      have hcons : consume ((k, v) :: rest) k =
          (v :: (consume rest (k + 1)).1, (consume rest (k + 1)).2) := by
        rw [consume, if_pos rfl]
      rw [hcons]
      refine ⟨?_, ?_, h3⟩
      · show (k, v) :: rest = _
        rw [List.length_cons, List.range'_succ k _ 1, List.zip_cons_cons,
          List.cons_append]
        exact congrArg _ h1
      · intro q hq
        have := h2 q hq
        simp only [List.length_cons]
        omega
    · have hcons : consume ((k, v) :: rest) c = ([], (k, v) :: rest) := by
        rw [consume, if_neg hk]
      rw [hcons]
      refine ⟨rfl, ?_, hch⟩
      intro q hq
      rw [List.map_cons, List.mem_cons] at hq
      have hkc : c ≤ k := hlb k (by rw [List.map_cons]; exact List.mem_cons_self _ _)
      cases hq with
      | inl h => subst h; simp only [List.length_nil]; omega
      | inr h =>
        have := (List.pairwise_cons.mp hpw).1 q h
        simp only [List.length_nil]
        omega

/-- Folding a run of consecutive-position insertions deposits the whole block
after the `pre` prefix. -/
theorem insert_run :
    ∀ (blk pre rest : List Nat),
      ((List.range' pre.length blk.length).zip blk).foldl
        (fun sh kv => insertClampN sh kv.1 kv.2) (pre ++ rest) =
      pre ++ blk ++ rest := by
  intro blk
  induction blk with
  | nil => intro pre rest; simp
  | cons b blk' ih =>
    intro pre rest
    rw [List.length_cons, List.range'_succ _ _ 1, List.zip_cons_cons,
      List.foldl_cons]
    have h1 : insertClampN (pre ++ rest) pre.length b = pre ++ b :: rest := by
      rw [insertClampN, List.take_left, List.drop_left]
    rw [h1, show pre ++ b :: rest = (pre ++ [b]) ++ rest from by simp,
      show pre.length + 1 = (pre ++ [b]).length from by simp,
      ih (pre ++ [b]) rest]
    simp

/-- The block decomposition of a legal `axis_sizes` list: `buildPairs` pairs
every base axis with the inserted sizes in front of it, reconstructs the
original items, its keys are the original keys, and folding the insertions
produces the interleaved `joinShape`. -/
theorem buildPairs_spec :
    ∀ (ds : List Nat) (bc : List (Nat × Nat)) (c : Nat),
      List.Chain' (· < ·) (bc.map Prod.fst) →
      (∀ q ∈ bc.map Prod.fst, c ≤ q) →
      (∀ xs e ys, bc = xs ++ e :: ys → e.1 < c + ds.length + xs.length) →
      baseShapeOf (buildPairs bc ds c) = ds ∧
      absPairs (buildPairs bc ds c) c = bc ∧
      (keysOf (buildPairs bc ds c)).map (· + c) = bc.map Prod.fst ∧
      ∀ pre : List Nat, pre.length = c →
        bc.foldl (fun sh kv => insertClampN sh kv.1 kv.2) (pre ++ ds) =
          pre ++ joinShape (buildPairs bc ds c) := by
  intro ds
  induction ds with
  | nil =>
    intro bc c _ hlb hbound
    have hbc : bc = [] := by
      cases bc with
      | nil => rfl
      | cons e rest =>
        have h1 := hbound [] e rest rfl
        have h2 := hlb e.1 (by rw [List.map_cons]; exact List.mem_cons_self _ _)
        simp only [List.length_nil] at h1
        omega
    subst hbc
    exact ⟨rfl, rfl, rfl, fun pre _ => by simp [buildPairs, joinShape]⟩
  | cons d ds' ih =>
    intro bc c hch hlb hbound
    obtain ⟨hdec, hlb', hch'⟩ := consume_spec bc c hch hlb
    have hziplen : ((List.range' c (consume bc c).1.length).zip
        (consume bc c).1).length = (consume bc c).1.length := by
      rw [List.length_zip, List.length_range', Nat.min_self]
    have hbound' : ∀ xs e ys, (consume bc c).2 = xs ++ e :: ys →
        e.1 < (c + (consume bc c).1.length + 1) + ds'.length + xs.length := by
      intro xs e ys h
      have := hbound ((List.range' c (consume bc c).1.length).zip
        (consume bc c).1 ++ xs) e ys (by
          conv_lhs => rw [hdec]
          rw [h, ← List.append_assoc])
      rw [List.length_append, hziplen, List.length_cons] at this
      omega
    obtain ⟨ih1, ih2, ih3, ih4⟩ :=
      ih (consume bc c).2 (c + (consume bc c).1.length + 1) hch' hlb' hbound'
    have hBP : buildPairs bc (d :: ds') c =
        ((consume bc c).1, d) ::
          buildPairs (consume bc c).2 ds' (c + (consume bc c).1.length + 1) :=
      rfl
    rw [hBP]
    refine ⟨?_, ?_, ?_, ?_⟩
    · show d :: baseShapeOf _ = d :: ds'
      rw [ih1]
    · show (List.range' c (consume bc c).1.length).zip (consume bc c).1 ++
        absPairs _ (c + (consume bc c).1.length + 1) = bc
      rw [ih2, ← hdec]
    · show (List.range (consume bc c).1.length ++
        (keysOf _).map (· + ((consume bc c).1.length + 1))).map (· + c) =
        bc.map Prod.fst
      rw [List.map_append, List.map_map]
      have e1 : (List.range (consume bc c).1.length).map (· + c) =
          List.range' c (consume bc c).1.length := by
        rw [List.range'_eq_map_range]
        exact List.map_congr_left fun x _ => Nat.add_comm x c
      have e2 : (keysOf (buildPairs (consume bc c).2 ds'
            (c + (consume bc c).1.length + 1))).map
            ((· + c) ∘ (· + ((consume bc c).1.length + 1))) =
          (consume bc c).2.map Prod.fst := by
        rw [← ih3]
        exact List.map_congr_left fun x _ => by
          simp only [Function.comp_apply]
          omega
      rw [e1, e2]
      conv_rhs => rw [hdec]
      rw [List.map_append, List.map_fst_zip _ _ (by
        rw [List.length_range'])]
    · intro pre hpre
      conv_lhs => rw [hdec]
      have hrun := insert_run (consume bc c).1 pre (d :: ds')
      rw [hpre] at hrun
      rw [List.foldl_append, hrun]
      rw [show pre ++ (consume bc c).1 ++ d :: ds' =
        (pre ++ (consume bc c).1 ++ [d]) ++ ds' from by simp]
      rw [ih4 (pre ++ (consume bc c).1 ++ [d]) (by
        simp only [List.length_append, List.length_cons, List.length_nil]
        omega)]
      show _ = pre ++ ((consume bc c).1 ++ d :: joinShape _)
      simp

theorem mem_enumFrom_decomp :
    ∀ (xs : List Nat) (i k : Nat) (ys : List Nat),
      (i + xs.length, k) ∈ List.enumFrom i (xs ++ k :: ys) := by
  intro xs
  induction xs with
  | nil =>
    intro i k ys
    rw [List.nil_append, List.length_nil, Nat.add_zero, List.enumFrom_cons]
    exact List.mem_cons_self _ _
  | cons x xs' ih =>
    intro i k ys
    rw [List.cons_append, List.enumFrom_cons,
      show i + (x :: xs').length = i + 1 + xs'.length from by
        simp only [List.length_cons]; omega]
    exact List.mem_cons_of_mem _ (ih (i + 1) k ys)

/-- The per-position bound of a legal key list, in decomposition form. -/
theorem legal_bound (ks : List Nat) (r : Nat) (h : legalKeys ks r) :
    ∀ xs k ys, ks = xs ++ k :: ys → k ≤ r + xs.length := by
  intro xs k ys he
  have hm : (0 + xs.length, k) ∈ List.enumFrom 0 ks := by
    rw [he]; exact mem_enumFrom_decomp xs 0 k ys
  have := h.2 (0 + xs.length, k) hm
  simpa using this

/-- In a strictly increasing list the head is bounded by the last element
minus the number of steps. -/
theorem chain_last_bound :
    ∀ (ys : List Nat) (k : Nat), List.Chain' (· < ·) (k :: ys) →
      k + ys.length ≤ (k :: ys).getLast (List.cons_ne_nil k ys) := by
  intro ys
  induction ys with
  | nil => intro k _; simp
  | cons y ys' ih =>
    intro k hch
    have h1 : k < y := (List.chain'_cons.mp hch).1
    have h2 := ih y hch.tail
    rw [List.getLast_cons (List.cons_ne_nil y ys')]
    simp only [List.length_cons]
    omega

/-- When the last possible position is absent from a legal key list, every
key is strictly below its non-strict legality bound. -/
theorem nontrailing_bound (ks : List Nat) (r : Nat)
    (hleg : legalKeys ks r)
    (hnt : ks.contains (r + ks.length - 1) = false) :
    ∀ xs k ys, ks = xs ++ k :: ys → k < r + xs.length := by
  intro xs k ys he
  have hch := hleg.1
  have hsuf : List.Chain' (· < ·) (k :: ys) :=
    (List.chain'_append.mp (he ▸ hch)).2.1
  have hlast := chain_last_bound ys k hsuf
  have hdecomp : ks = (xs ++ (k :: ys).dropLast) ++
      ((k :: ys).getLast (List.cons_ne_nil k ys)) :: [] := by
    rw [he, List.append_assoc]
    congr 1
    exact (List.dropLast_append_getLast _).symm
  have hbound := legal_bound ks r hleg _ _ _ hdecomp
  have hlen : (xs ++ (k :: ys).dropLast).length = xs.length + ys.length := by
    simp
  have hLmem : (k :: ys).getLast (List.cons_ne_nil k ys) ∈ ks := by
    rw [he]
    exact List.mem_append_right _ (List.getLast_mem _)
  have hLne : (k :: ys).getLast (List.cons_ne_nil k ys) ≠ r + ks.length - 1 := by
    intro hEq
    have hc : ks.contains (r + ks.length - 1) = true := by
      rw [← hEq]
      simpa using hLmem
    rw [hnt] at hc
    cases hc
  have hklen : ks.length = xs.length + 1 + ys.length := by
    rw [he]
    simp only [List.length_append, List.length_cons]
    omega
  rw [hlen] at hbound
  omega

/-- Every inserted-axis position lies strictly before the last entry of the
interleaved shape. -/
theorem keysOf_lt :
    ∀ (ps : List (List Nat × Nat)) (q : Nat), q ∈ keysOf ps →
      q + 1 < (joinShape ps).length := by
  intro ps
  induction ps with
  | nil => intro q hq; cases hq
  | cons p rest ih =>
    obtain ⟨g, d⟩ := p
    intro q hq
    have hlen : (joinShape ((g, d) :: rest)).length =
        g.length + 1 + (joinShape rest).length := by
      show (g ++ d :: joinShape rest).length = _
      simp only [List.length_append, List.length_cons]
      omega
    have hq' : q ∈ List.range g.length ++ (keysOf rest).map (· + (g.length + 1)) := hq
    rw [List.mem_append] at hq'
    cases hq' with
    | inl h =>
      rw [List.mem_range] at h
      omega
    | inr h =>
      obtain ⟨q', hq', he⟩ := List.mem_map.mp h
      have := ih q' hq'
      omega

/-- Sorting an already key-sorted item list is the identity. -/
theorem sortByKey_sorted_id :
    ∀ l : List (Nat × Dim), List.Chain' (· < ·) (l.map Prod.fst) →
      sortByKey l = l := by
  intro l
  induction l with
  | nil => intro _; rfl
  | cons p rest ih =>
    intro hch
    rw [List.map_cons] at hch
    show insertPair p (sortByKey rest) = p :: rest
    rw [ih hch.tail]
    cases rest with
    | nil => rfl
    | cons q rest' =>
      rw [List.map_cons] at hch
      have h1 : p.1 < q.1 := (List.chain'_cons.mp hch).1
      rw [insertPair, if_pos (Nat.le_of_lt h1)]

theorem get_append_mid :
    ∀ (pre : List Dim) (a : Dim) (suf : List Dim)
      (h : pre.length < (pre ++ a :: suf).length),
      (pre ++ a :: suf).get ⟨pre.length, h⟩ = a := by
  intro pre
  induction pre with
  | nil => intro a suf h; rfl
  | cons x prep ih =>
    intro a suf h
    show (prep ++ a :: suf).get ⟨prep.length, _⟩ = a
    exact ih a suf _

theorem set_append_mid :
    ∀ (pre : List Dim) (a b : Dim) (suf : List Dim),
      (pre ++ a :: suf).set pre.length b = pre ++ b :: suf := by
  intro pre
  induction pre with
  | nil => intro a b suf; rfl
  | cons x prep ih =>
    intro a b suf
    show x :: (prep ++ a :: suf).set prep.length b = _
    rw [ih a b suf]
    rfl

/-- Processing one block of consecutive keys multiplies exactly the entry
after the finished prefix by the block product. -/
theorem buildMultsGo_block :
    ∀ (g : List Nat) (preD : List Dim) (J : Nat) (a : Int) (suf : List Dim)
      (more : List (Nat × Dim)),
      buildMultsGo
        (((List.range' (preD.length + J) g.length).zip g).map
          (fun p : Nat × Nat => (p.1, Dim.known (p.2 : Int))) ++ more) J
        (preD ++ Dim.known a :: suf) =
      buildMultsGo more (J + g.length)
        (preD ++ Dim.known (a * (g.prod : Int)) :: suf) := by
  intro g
  induction g with
  | nil =>
    intro preD J a suf more
    simp [mul_one]
  | cons x gp ih =>
    intro preD J a suf more
    rw [List.length_cons, List.range'_succ _ _ 1, List.zip_cons_cons,
      List.map_cons, List.cons_append]
    have hlt : preD.length + J - J < (preD ++ Dim.known a :: suf).length := by
      simp only [List.length_append, List.length_cons]
      omega
    rw [buildMultsGo, dif_pos hlt]
    have hoa : preD.length + J - J = preD.length := by omega
    simp only [hoa] at *
    rw [get_append_mid preD (Dim.known a) suf, set_append_mid]
    have hmul : (Dim.known a).mul (Dim.known (x : Int)) =
        Dim.known (a * (x : Int)) := rfl
    rw [hmul,
      show preD.length + J + 1 = preD.length + (J + 1) from by omega,
      ih preD (J + 1) (a * (x : Int)) suf more,
      show J + 1 + gp.length = J + (x :: gp).length from by
        simp only [List.length_cons]; omega,
      show a * (x : Int) * (gp.prod : Int) = a * (((x :: gp).prod : Nat) : Int)
        from by rw [List.prod_cons]; push_cast; ring]
    rfl

/-- The multiples loop over the reconstructed items of a block decomposition
computes the per-base-axis block products. -/
theorem buildMultsGo_abs :
    ∀ (ps : List (List Nat × Nat)) (preD : List Dim) (J : Nat),
      buildMultsGo
        ((absPairs ps (preD.length + J)).map
          (fun p : Nat × Nat => (p.1, Dim.known (p.2 : Int)))) J
        (preD ++ List.replicate ps.length (Dim.known 1)) =
      .ok (preD ++ ps.map (fun p => Dim.known (p.1.prod : Int))) := by
  intro ps
  induction ps with
  | nil =>
    intro preD J
    simp [absPairs, buildMultsGo]
  | cons p rest ih =>
    obtain ⟨g, d⟩ := p
    intro preD J
    show buildMultsGo
        (((List.range' (preD.length + J) g.length).zip g ++
          absPairs rest (preD.length + J + g.length + 1)).map
          (fun p : Nat × Nat => (p.1, Dim.known (p.2 : Int)))) J
        (preD ++ List.replicate (rest.length + 1) (Dim.known 1)) = _
    rw [List.map_append, List.replicate_succ, buildMultsGo_block, one_mul]
    rw [show preD ++ Dim.known ((g.prod : Nat) : Int) ::
        List.replicate rest.length (Dim.known 1) =
      (preD ++ [Dim.known ((g.prod : Nat) : Int)]) ++
        List.replicate rest.length (Dim.known 1) from by simp]
    rw [show preD.length + J + g.length + 1 =
      (preD ++ [Dim.known ((g.prod : Nat) : Int)]).length + (J + g.length)
      from by simp only [List.length_append, List.length_cons,
        List.length_nil]; omega]
    rw [ih (preD ++ [Dim.known ((g.prod : Nat) : Int)]) (J + g.length)]
    simp

/-- `buildMultiples` over the reconstructed items of a block decomposition
returns the block products. -/
theorem buildMultiples_abs (ps : List (List Nat × Nat)) :
    buildMultiples ps.length
      ((absPairs ps 0).map (fun p : Nat × Nat => (p.1, Dim.known (p.2 : Int)))) =
    .ok (ps.map (fun p => Dim.known (p.1.prod : Int))) :=
  buildMultsGo_abs ps [] 0

theorem dimsToNats_map_known :
    ∀ ns : List Nat,
      dimsToNats (ns.map fun n : Nat => Dim.known (n : Int)) = some ns := by
  intro ns
  induction ns with
  | nil => rfl
  | cons n rest ih =>
    rw [List.map_cons]
    show (match dimToNat (Dim.known (n : Int)) with
      | some m => (dimsToNats (rest.map fun n : Nat => Dim.known (n : Int))).map (m :: ·)
      | none => none) = _
    rw [show dimToNat (Dim.known (n : Int)) = some n from by
      rw [dimToNat, if_pos (Int.natCast_nonneg n), Int.toNat_natCast]]
    rw [ih]
    rfl

theorem bcToNats_map :
    ∀ bc : List (Nat × Nat),
      bcToNats (bc.map fun p : Nat × Nat => (p.1, Dim.known (p.2 : Int))) = some bc := by
  intro bc
  induction bc with
  | nil => rfl
  | cons e rest ih =>
    obtain ⟨k, v⟩ := e
    rw [List.map_cons]
    show (match dimToNat (Dim.known (v : Int)) with
      | some n => (bcToNats (rest.map fun p : Nat × Nat => (p.1, Dim.known (p.2 : Int)))).map
          ((k, n) :: ·)
      | none => none) = _
    rw [show dimToNat (Dim.known (v : Int)) = some v from by
      rw [dimToNat, if_pos (Int.natCast_nonneg v), Int.toNat_natCast]]
    rw [ih]
    rfl

theorem insertClamp_map (s : List Nat) (k v : Nat) :
    insertClamp (s.map fun n : Nat => Dim.known (n : Int)) k (Dim.known (v : Int)) =
      (insertClampN s k v).map (fun n : Nat => Dim.known (n : Int)) := by
  rw [insertClamp, insertClampN, List.map_append, List.map_cons,
    List.map_take, List.map_drop]

theorem foldl_insertClamp_map :
    ∀ (bc : List (Nat × Nat)) (s : List Nat),
      (bc.map fun p : Nat × Nat => (p.1, Dim.known (p.2 : Int))).foldl
        (fun sh kv => insertClamp sh kv.1 kv.2)
        (s.map fun n : Nat => Dim.known (n : Int)) =
      (bc.foldl (fun sh kv => insertClampN sh kv.1 kv.2) s).map
        (fun n : Nat => Dim.known (n : Int)) := by
  intro bc
  induction bc with
  | nil => intro s; rfl
  | cons e rest ih =>
    obtain ⟨k, v⟩ := e
    intro s
    rw [List.map_cons, List.foldl_cons, List.foldl_cons]
    show (rest.map fun p : Nat × Nat => (p.1, Dim.known (p.2 : Int))).foldl _
        (insertClamp (s.map fun n : Nat => Dim.known (n : Int)) k
          (Dim.known (v : Int))) = _
    rw [insertClamp_map, ih (insertClampN s k v)]

theorem insertClampN_length (l : List Nat) (pos v : Nat) :
    (insertClampN l pos v).length = l.length + 1 := by
  rw [insertClampN]
  simp only [List.length_append, List.length_cons, List.length_take,
    List.length_drop]
  omega

theorem broadcastOutN_length :
    ∀ (bc : List (Nat × Nat)) (s : List Nat),
      (broadcastOutN s bc).length = s.length + bc.length := by
  intro bc
  induction bc with
  | nil => intro s; rfl
  | cons e rest ih =>
    intro s
    show (List.foldl _ (insertClampN s e.1 e.2) rest).length = _
    rw [show List.foldl (fun sh kv => insertClampN sh kv.1 kv.2)
        (insertClampN s e.1 e.2) rest = broadcastOutN (insertClampN s e.1 e.2) rest
      from rfl, ih, insertClampN_length]
    simp only [List.length_cons]
    omega

theorem insertClampN_append_one (s : List Nat) (x n v : Nat)
    (h : n ≤ s.length) :
    insertClampN (s ++ [x]) n v = insertClampN s n v ++ [x] := by
  rw [insertClampN, insertClampN, List.take_append_eq_append_take,
    List.drop_append_eq_append_drop,
    show n - s.length = 0 from by omega]
  simp

/-- When every insertion lands at or before the current end of `s`, a
trailing element rides along untouched. -/
theorem foldl_insert_append_one :
    ∀ (bc : List (Nat × Nat)) (s : List Nat) (x : Nat),
      (∀ xs e ys, bc = xs ++ e :: ys → e.1 ≤ s.length + xs.length) →
      bc.foldl (fun sh kv => insertClampN sh kv.1 kv.2) (s ++ [x]) =
      (bc.foldl (fun sh kv => insertClampN sh kv.1 kv.2) s) ++ [x] := by
  intro bc
  induction bc with
  | nil => intro s x _; rfl
  | cons e rest ih =>
    intro s x hb
    rw [List.foldl_cons, List.foldl_cons]
    have h1 : e.1 ≤ s.length := by
      have := hb [] e rest rfl
      simpa using this
    rw [insertClampN_append_one s x e.1 e.2 h1]
    exact ih (insertClampN s e.1 e.2) x fun xs q ys hq => by
      have := hb (e :: xs) q ys (by rw [hq]; rfl)
      rw [insertClampN_length]
      simp only [List.length_cons] at this
      omega

theorem tiledShape_eq_zip :
    ∀ ps : List (List Nat × Nat),
      tiledShape ps = List.zipWith (· * ·) (multsOf ps) (baseShapeOf ps) := by
  intro ps
  induction ps with
  | nil => rfl
  | cons p rest ih =>
    show (p.1.prod * p.2) :: tiledShape rest = (p.1.prod * p.2) :: _
    rw [ih]
    rfl

theorem baseCoordsOf_length :
    ∀ (ps : List (List Nat × Nat)) (n : Nat),
      (baseCoordsOf ps n).length = ps.length := by
  intro ps
  induction ps with
  | nil => intro n; rfl
  | cons p rest ih =>
    obtain ⟨g, d⟩ := p
    intro n
    show ((n / (joinShape rest).prod) % d ::
      baseCoordsOf rest (n % (joinShape rest).prod)).length = rest.length + 1
    rw [List.length_cons, ih]

theorem unflatten_append_one (xs : List Nat) (n : Nat) (h : n < xs.prod) :
    unflatten (xs ++ [1]) n = unflatten xs n ++ [0] := by
  rw [unflatten_append xs [1] n (by simpa using h)]
  congr 1
  · rw [show ([1] : List Nat).prod = 1 from rfl, Nat.div_one]
  · show unflatten [1] (n % ([1] : List Nat).prod) = [0]
    rw [show ([1] : List Nat).prod = 1 from rfl, Nat.mod_one]
    rfl

/-- Rewrite equivalence for a broadcast that appends at least one trailing
axis: preprocess emits a trailing-1 reshape, the merged tile, and the final
reshape, and the composite reads the same source element at every output
position. -/
theorem broadcast_rewrite_trailing (bcN : List (Nat × Nat)) (ns : List Nat)
    (hleg : legalKeys (bcN.map Prod.fst) ns.length)
    (htr : (bcN.map Prod.fst).contains (ns.length + bcN.length - 1) = true) :
    ∃ (rewritten : List ShapeOp) (f g : Nat → Nat),
      preprocess
        [ShapeOp.broadcast (bcN.map fun p : Nat × Nat =>
          (p.1, Dim.known (p.2 : Int)))]
        (ns.map fun n : Nat => Dim.known (n : Int)) = .ok rewritten ∧
      applySeqSrc
        [ShapeOp.broadcast (bcN.map fun p : Nat × Nat =>
          (p.1, Dim.known (p.2 : Int)))] ns =
        some (broadcastOutN ns bcN, f) ∧
      applySeqSrc rewritten ns = some (broadcastOutN ns bcN, g) ∧
      ∀ n, n < (broadcastOutN ns bcN).prod → f n = g n := by
  have hch : List.Chain' (· < ·) (bcN.map Prod.fst) := hleg.1
  have hkeysD : ((bcN.map fun p : Nat × Nat =>
      (p.1, Dim.known (p.2 : Int))).map Prod.fst) = bcN.map Prod.fst := by
    rw [List.map_map]
    exact List.map_congr_left fun x _ => rfl
  have hsort : sortByKey (bcN.map fun p : Nat × Nat =>
      (p.1, Dim.known (p.2 : Int))) =
      bcN.map fun p : Nat × Nat => (p.1, Dim.known (p.2 : Int)) :=
    sortByKey_sorted_id _ (by rw [hkeysD]; exact hch)
  have hout_shape : transformShape
      (ShapeOp.broadcast (bcN.map fun p : Nat × Nat =>
        (p.1, Dim.known (p.2 : Int))))
      (ns.map fun n : Nat => Dim.known (n : Int)) =
      .ok ((broadcastOutN ns bcN).map fun n : Nat => Dim.known (n : Int)) := by
    show Except.ok _ = _
    rw [hsort, foldl_insertClamp_map]
    rfl
  have hlenout : (broadcastOutN ns bcN).length = ns.length + bcN.length :=
    broadcastOutN_length bcN ns
  have hboundP : ∀ xs e ys, bcN = xs ++ e :: ys →
      e.1 ≤ ns.length + xs.length := by
    intro xs e ys he
    have := legal_bound (bcN.map Prod.fst) ns.length hleg
      (xs.map Prod.fst) e.1 (ys.map Prod.fst) (by rw [he]; simp)
    simpa using this
  have hbound' : ∀ xs e ys, bcN = xs ++ e :: ys →
      e.1 < 0 + (ns ++ [1]).length + xs.length := by
    intro xs e ys he
    have := hboundP xs e ys he
    simp only [List.length_append, List.length_cons, List.length_nil]
    omega
  obtain ⟨hbase, habs, hkeysOf0, hfold⟩ :=
    buildPairs_spec (ns ++ [1]) bcN 0 hch (fun q _ => Nat.zero_le q) hbound'
  have hkeysOf : keysOf (buildPairs bcN (ns ++ [1]) 0) = bcN.map Prod.fst := by
    rw [← hkeysOf0]
    simp
  have hfold0 := hfold [] rfl
  rw [List.nil_append, List.nil_append] at hfold0
  rw [foldl_insert_append_one bcN ns 1 hboundP] at hfold0
  have hbaseLen : (buildPairs bcN (ns ++ [1]) 0).length = ns.length + 1 := by
    have h := congrArg List.length hbase
    rw [baseShapeOf, List.length_map] at h
    simpa using h
  have hmults : buildMultiples (ns.length + 1)
      (bcN.map fun p : Nat × Nat => (p.1, Dim.known (p.2 : Int))) =
      .ok ((buildPairs bcN (ns ++ [1]) 0).map
        fun p => Dim.known (p.1.prod : Int)) := by
    rw [show ns.length + 1 = (buildPairs bcN (ns ++ [1]) 0).length from
      hbaseLen.symm,
      show bcN.map (fun p : Nat × Nat => (p.1, Dim.known (p.2 : Int))) =
        (absPairs (buildPairs bcN (ns ++ [1]) 0) 0).map
          (fun p : Nat × Nat => (p.1, Dim.known (p.2 : Int))) from by
        rw [habs]]
    exact buildMultiples_abs _
  have h1 : dimsToNats ((ns.map fun n : Nat => Dim.known (n : Int)) ++
      [Dim.known 1]) = some (ns ++ [1]) := by
    rw [show (ns.map fun n : Nat => Dim.known (n : Int)) ++ [Dim.known 1] =
      (ns ++ [1]).map fun n : Nat => Dim.known (n : Int) from by simp]
    exact dimsToNats_map_known (ns ++ [1])
  have h2 : (ns ++ [1]).prod = ns.prod := by simp
  have hmultsNats : dimsToNats ((buildPairs bcN (ns ++ [1]) 0).map
      fun p => Dim.known (p.1.prod : Int)) =
      some (multsOf (buildPairs bcN (ns ++ [1]) 0)) := by
    rw [show ((buildPairs bcN (ns ++ [1]) 0).map
        fun p => Dim.known (p.1.prod : Int)) =
      (multsOf (buildPairs bcN (ns ++ [1]) 0)).map
        fun n : Nat => Dim.known (n : Int) from by
      rw [multsOf, List.map_map]; rfl]
    exact dimsToNats_map_known _
  have hmlen : (multsOf (buildPairs bcN (ns ++ [1]) 0)).length =
      (ns ++ [1]).length := by
    rw [multsOf, List.length_map, hbaseLen]
    simp
  have hzip : List.zipWith (· * ·) (multsOf (buildPairs bcN (ns ++ [1]) 0))
      (ns ++ [1]) = tiledShape (buildPairs bcN (ns ++ [1]) 0) := by
    rw [tiledShape_eq_zip, hbase]
  have houtNats : dimsToNats ((broadcastOutN ns bcN).map
      fun n : Nat => Dim.known (n : Int)) = some (broadcastOutN ns bcN) :=
    dimsToNats_map_known _
  have hprod_eq : (broadcastOutN ns bcN).prod =
      (tiledShape (buildPairs bcN (ns ++ [1]) 0)).prod := by
    rw [prod_tiled_eq_join, ← hfold0]
    show (broadcastOutN ns bcN).prod = (broadcastOutN ns bcN ++ [1]).prod
    simp
  refine ⟨[ShapeOp.reshape ((ns.map fun n : Nat => Dim.known (n : Int)) ++
      [Dim.known 1]),
    ShapeOp.tile ((buildPairs bcN (ns ++ [1]) 0).map
      fun p => Dim.known (p.1.prod : Int)),
    ShapeOp.reshape ((broadcastOutN ns bcN).map
      fun n : Nat => Dim.known (n : Int))],
    broadcastSrc ns bcN,
    tileSrc (ns ++ [1]) (multsOf (buildPairs bcN (ns ++ [1]) 0)),
    ?_, ?_, ?_, ?_⟩
  · -- preprocess computation
    have hc : (((bcN.map fun p : Nat × Nat =>
        (p.1, Dim.known (p.2 : Int))).map Prod.fst).contains
        (((broadcastOutN ns bcN).map fun n : Nat =>
          Dim.known (n : Int)).length - 1)) = true := by
      rw [hkeysD, List.length_map, hlenout]
      exact htr
    simp only [preprocess, hout_shape, hc, if_true]
    have hlen1 : ((ns.map fun n : Nat => Dim.known (n : Int)) ++
        [Dim.known 1]).length = ns.length + 1 := by
      simp
    rw [hlen1, hsort, hmults]
    rfl
  · -- native broadcast source map
    simp only [applySeqSrc, applyOpSrc, bcToNats_map]
    rw [if_pos hleg]
    rfl
  · -- rewritten source map
    have step1 : applyOpSrc (ShapeOp.reshape
        ((ns.map fun n : Nat => Dim.known (n : Int)) ++ [Dim.known 1])) ns =
        some (ns ++ [1], id) := by
      simp only [applyOpSrc, h1]
      rw [if_pos h2]
    have step2 : applyOpSrc (ShapeOp.tile
        ((buildPairs bcN (ns ++ [1]) 0).map
          fun p => Dim.known (p.1.prod : Int))) (ns ++ [1]) =
        some (tiledShape (buildPairs bcN (ns ++ [1]) 0),
          tileSrc (ns ++ [1]) (multsOf (buildPairs bcN (ns ++ [1]) 0))) := by
      simp only [applyOpSrc, hmultsNats]
      rw [if_pos hmlen, hzip]
    have step3 : applyOpSrc (ShapeOp.reshape
        ((broadcastOutN ns bcN).map fun n : Nat => Dim.known (n : Int)))
        (tiledShape (buildPairs bcN (ns ++ [1]) 0)) =
        some (broadcastOutN ns bcN, id) := by
      simp only [applyOpSrc, houtNats]
      rw [if_pos hprod_eq]
    simp only [applySeqSrc, step1, step2, step3]
    rfl
  · -- pointwise equality of the source maps
    intro n hn
    have hnj : n < (joinShape (buildPairs bcN (ns ++ [1]) 0)).prod := by
      rw [← hfold0]
      simpa using hn
    have hcoords := tile_coords_eq_baseCoords (buildPairs bcN (ns ++ [1]) 0)
      n hnj
    have hremove := remove_keys_eq_baseCoords (buildPairs bcN (ns ++ [1]) 0)
      n hnj
    have hunf : unflatten (joinShape (buildPairs bcN (ns ++ [1]) 0)) n =
        unflatten (broadcastOutN ns bcN) n ++ [0] := by
      rw [← hfold0]
      exact unflatten_append_one _ n hn
    have hcont : (keysOf (buildPairs bcN (ns ++ [1]) 0)).contains
        (broadcastOutN ns bcN).length = false := by
      cases hb : (keysOf (buildPairs bcN (ns ++ [1]) 0)).contains
          (broadcastOutN ns bcN).length with
      | false => rfl
      | true =>
        exfalso
        have hm : (broadcastOutN ns bcN).length ∈
            keysOf (buildPairs bcN (ns ++ [1]) 0) := by
          simpa using hb
        have := keysOf_lt _ _ hm
        rw [← hfold0, show List.foldl (fun sh kv => insertClampN sh kv.1 kv.2)
          ns bcN = broadcastOutN ns bcN from rfl] at this
        simp at this
    have hsplit : removePos (keysOf (buildPairs bcN (ns ++ [1]) 0))
        (unflatten (broadcastOutN ns bcN) n ++ [0]) 0 =
        removePos (keysOf (buildPairs bcN (ns ++ [1]) 0))
          (unflatten (broadcastOutN ns bcN) n) 0 ++ [0] := by
      rw [removePos_append]
      congr 1
      rw [Nat.zero_add, unflatten_length]
      show (if (keysOf (buildPairs bcN (ns ++ [1]) 0)).contains
          (broadcastOutN ns bcN).length = true then _ else _) = [0]
      rw [hcont]
      simp [removePos]
    have hbc_eq : baseCoordsOf (buildPairs bcN (ns ++ [1]) 0) n =
        removePos (bcN.map Prod.fst)
          (unflatten (broadcastOutN ns bcN) n) 0 ++ [0] := by
      rw [← hkeysOf, ← hremove, hunf, hsplit]
    have hcs_len : (removePos (bcN.map Prod.fst)
        (unflatten (broadcastOutN ns bcN) n) 0).length = ns.length := by
      have h := congrArg List.length hbc_eq
      rw [baseCoordsOf_length, hbaseLen] at h
      simp only [List.length_append, List.length_cons, List.length_nil] at h
      omega
    show broadcastSrc ns bcN n = tileSrc (ns ++ [1])
      (multsOf (buildPairs bcN (ns ++ [1]) 0)) n
    rw [hbase] at hcoords
    rw [broadcastSrc, tileSrc, hzip, hcoords, hbc_eq,
      flatPos_append_one ns _ hcs_len]

/-- Rewrite equivalence for a broadcast that inserts only before existing
axes: preprocess emits just the merged tile and the final reshape, and the
composite reads the same source element at every output position. -/
theorem broadcast_rewrite_flat (bcN : List (Nat × Nat)) (ns : List Nat)
    (hleg : legalKeys (bcN.map Prod.fst) ns.length)
    (htr : (bcN.map Prod.fst).contains (ns.length + bcN.length - 1) = false) :
    ∃ (rewritten : List ShapeOp) (f g : Nat → Nat),
      preprocess
        [ShapeOp.broadcast (bcN.map fun p : Nat × Nat =>
          (p.1, Dim.known (p.2 : Int)))]
        (ns.map fun n : Nat => Dim.known (n : Int)) = .ok rewritten ∧
      applySeqSrc
        [ShapeOp.broadcast (bcN.map fun p : Nat × Nat =>
          (p.1, Dim.known (p.2 : Int)))] ns =
        some (broadcastOutN ns bcN, f) ∧
      applySeqSrc rewritten ns = some (broadcastOutN ns bcN, g) ∧
      ∀ n, n < (broadcastOutN ns bcN).prod → f n = g n := by
  have hch : List.Chain' (· < ·) (bcN.map Prod.fst) := hleg.1
  have hkeysD : ((bcN.map fun p : Nat × Nat =>
      (p.1, Dim.known (p.2 : Int))).map Prod.fst) = bcN.map Prod.fst := by
    rw [List.map_map]
    exact List.map_congr_left fun x _ => rfl
  have hsort : sortByKey (bcN.map fun p : Nat × Nat =>
      (p.1, Dim.known (p.2 : Int))) =
      bcN.map fun p : Nat × Nat => (p.1, Dim.known (p.2 : Int)) :=
    sortByKey_sorted_id _ (by rw [hkeysD]; exact hch)
  have hout_shape : transformShape
      (ShapeOp.broadcast (bcN.map fun p : Nat × Nat =>
        (p.1, Dim.known (p.2 : Int))))
      (ns.map fun n : Nat => Dim.known (n : Int)) =
      .ok ((broadcastOutN ns bcN).map fun n : Nat => Dim.known (n : Int)) := by
    show Except.ok _ = _
    rw [hsort, foldl_insertClamp_map]
    rfl
  have hlenout : (broadcastOutN ns bcN).length = ns.length + bcN.length :=
    broadcastOutN_length bcN ns
  have hnt : (bcN.map Prod.fst).contains
      (ns.length + (bcN.map Prod.fst).length - 1) = false := by
    rw [List.length_map]
    exact htr
  have hboundP : ∀ xs e ys, bcN = xs ++ e :: ys →
      e.1 < ns.length + xs.length := by
    intro xs e ys he
    have := nontrailing_bound (bcN.map Prod.fst) ns.length hleg hnt
      (xs.map Prod.fst) e.1 (ys.map Prod.fst) (by rw [he]; simp)
    simpa using this
  have hbound' : ∀ xs e ys, bcN = xs ++ e :: ys →
      e.1 < 0 + ns.length + xs.length := by
    intro xs e ys he
    have := hboundP xs e ys he
    omega
  obtain ⟨hbase, habs, hkeysOf0, hfold⟩ :=
    buildPairs_spec ns bcN 0 hch (fun q _ => Nat.zero_le q) hbound'
  have hkeysOf : keysOf (buildPairs bcN ns 0) = bcN.map Prod.fst := by
    rw [← hkeysOf0]
    simp
  have hfold0 := hfold [] rfl
  rw [List.nil_append, List.nil_append] at hfold0
  have hbaseLen : (buildPairs bcN ns 0).length = ns.length := by
    have h := congrArg List.length hbase
    rw [baseShapeOf, List.length_map] at h
    exact h
  have hmults : buildMultiples ns.length
      (bcN.map fun p : Nat × Nat => (p.1, Dim.known (p.2 : Int))) =
      .ok ((buildPairs bcN ns 0).map
        fun p => Dim.known (p.1.prod : Int)) := by
    rw [show ns.length = (buildPairs bcN ns 0).length from hbaseLen.symm,
      show bcN.map (fun p : Nat × Nat => (p.1, Dim.known (p.2 : Int))) =
        (absPairs (buildPairs bcN ns 0) 0).map
          (fun p : Nat × Nat => (p.1, Dim.known (p.2 : Int))) from by
        rw [habs]]
    exact buildMultiples_abs _
  have hmultsNats : dimsToNats ((buildPairs bcN ns 0).map
      fun p => Dim.known (p.1.prod : Int)) =
      some (multsOf (buildPairs bcN ns 0)) := by
    rw [show ((buildPairs bcN ns 0).map
        fun p => Dim.known (p.1.prod : Int)) =
      (multsOf (buildPairs bcN ns 0)).map
        fun n : Nat => Dim.known (n : Int) from by
      rw [multsOf, List.map_map]; rfl]
    exact dimsToNats_map_known _
  have hmlen : (multsOf (buildPairs bcN ns 0)).length = ns.length := by
    rw [multsOf, List.length_map, hbaseLen]
  have hzip : List.zipWith (· * ·) (multsOf (buildPairs bcN ns 0)) ns =
      tiledShape (buildPairs bcN ns 0) := by
    rw [tiledShape_eq_zip, hbase]
  have houtNats : dimsToNats ((broadcastOutN ns bcN).map
      fun n : Nat => Dim.known (n : Int)) = some (broadcastOutN ns bcN) :=
    dimsToNats_map_known _
  have hprod_eq : (broadcastOutN ns bcN).prod =
      (tiledShape (buildPairs bcN ns 0)).prod := by
    rw [prod_tiled_eq_join, ← hfold0]
    rfl
  refine ⟨[ShapeOp.tile ((buildPairs bcN ns 0).map
      fun p => Dim.known (p.1.prod : Int)),
    ShapeOp.reshape ((broadcastOutN ns bcN).map
      fun n : Nat => Dim.known (n : Int))],
    broadcastSrc ns bcN,
    tileSrc ns (multsOf (buildPairs bcN ns 0)),
    ?_, ?_, ?_, ?_⟩
  · -- preprocess computation
    have hc : (((bcN.map fun p : Nat × Nat =>
        (p.1, Dim.known (p.2 : Int))).map Prod.fst).contains
        (((broadcastOutN ns bcN).map fun n : Nat =>
          Dim.known (n : Int)).length - 1)) = false := by
      rw [hkeysD, List.length_map, hlenout]
      exact htr
    simp only [preprocess, hout_shape, hc, Bool.false_eq_true, if_false]
    rw [show (ns.map fun n : Nat => Dim.known (n : Int)).length = ns.length
      from List.length_map _ _, hsort, hmults]
    rfl
  · -- native broadcast source map
    simp only [applySeqSrc, applyOpSrc, bcToNats_map]
    rw [if_pos hleg]
    rfl
  · -- rewritten source map
    have step2 : applyOpSrc (ShapeOp.tile
        ((buildPairs bcN ns 0).map
          fun p => Dim.known (p.1.prod : Int))) ns =
        some (tiledShape (buildPairs bcN ns 0),
          tileSrc ns (multsOf (buildPairs bcN ns 0))) := by
      simp only [applyOpSrc, hmultsNats]
      rw [if_pos hmlen, hzip]
    have step3 : applyOpSrc (ShapeOp.reshape
        ((broadcastOutN ns bcN).map fun n : Nat => Dim.known (n : Int)))
        (tiledShape (buildPairs bcN ns 0)) =
        some (broadcastOutN ns bcN, id) := by
      simp only [applyOpSrc, houtNats]
      rw [if_pos hprod_eq]
    simp only [applySeqSrc, step2, step3]
    rfl
  · -- pointwise equality of the source maps
    intro n hn
    have hnj : n < (joinShape (buildPairs bcN ns 0)).prod := by
      rw [← hfold0]
      exact hn
    have hcoords := tile_coords_eq_baseCoords (buildPairs bcN ns 0) n hnj
    have hremove := remove_keys_eq_baseCoords (buildPairs bcN ns 0) n hnj
    rw [hbase] at hcoords
    rw [← hfold0, show List.foldl (fun sh kv => insertClampN sh kv.1 kv.2)
      ns bcN = broadcastOutN ns bcN from rfl] at hremove
    show broadcastSrc ns bcN n = tileSrc ns (multsOf (buildPairs bcN ns 0)) n
    rw [broadcastSrc, tileSrc, hzip, hcoords, ← hkeysOf, hremove]

/-- C8: for every legal `axis_sizes` mapping of a `Broadcast` op (strictly
increasing insertion positions, each at or before the current end of the
shape — covering several new axes collapsing onto one insertion point and
axes appended past the last existing axis), the TensorFlow `preprocess`
rewrite — an optional append-trailing-1 `Reshape`, a `Tile` with merged
per-axis multiples, and a final `Reshape` to the broadcast's output shape —
is semantically identical to the native `Broadcast`: `preprocess` succeeds,
both op sequences transform the input shape to the same output shape, and
their flat source-index maps agree at every output position, so they
replicate the tensor's elements identically. -/
theorem claim8_broadcast_tile_refinement
    (bcN : List (Nat × Nat)) (ns : List Nat)
    (hleg : legalKeys (bcN.map Prod.fst) ns.length) :
    ∃ (rewritten : List ShapeOp) (f g : Nat → Nat),
      preprocess
        [ShapeOp.broadcast (bcN.map fun p : Nat × Nat =>
          (p.1, Dim.known (p.2 : Int)))]
        (ns.map fun n : Nat => Dim.known (n : Int)) = .ok rewritten ∧
      applySeqSrc
        [ShapeOp.broadcast (bcN.map fun p : Nat × Nat =>
          (p.1, Dim.known (p.2 : Int)))] ns =
        some (broadcastOutN ns bcN, f) ∧
      applySeqSrc rewritten ns = some (broadcastOutN ns bcN, g) ∧
      ∀ n, n < (broadcastOutN ns bcN).prod → f n = g n := by
  cases htr : (bcN.map Prod.fst).contains (ns.length + bcN.length - 1) with
  | true => exact broadcast_rewrite_trailing bcN ns hleg htr
  | false => exact broadcast_rewrite_flat bcN ns hleg htr

/-- Witness for C8 at the broadcast `{0: 2, 1: 3, 4: 4}` on shape `[5, 7]`
(two new axes collapsing onto the first insertion point and one appended
past the last axis). -/
theorem claim8_witness :
    legalKeys (([(0, 2), (1, 3), (4, 4)] : List (Nat × Nat)).map Prod.fst)
      ([5, 7] : List Nat).length ∧
    ∃ (rewritten : List ShapeOp) (f g : Nat → Nat),
      preprocess
        [ShapeOp.broadcast (([(0, 2), (1, 3), (4, 4)] :
          List (Nat × Nat)).map fun p : Nat × Nat =>
          (p.1, Dim.known (p.2 : Int)))]
        (([5, 7] : List Nat).map fun n : Nat => Dim.known (n : Int)) =
        .ok rewritten ∧
      applySeqSrc
        [ShapeOp.broadcast (([(0, 2), (1, 3), (4, 4)] :
          List (Nat × Nat)).map fun p : Nat × Nat =>
          (p.1, Dim.known (p.2 : Int)))] [5, 7] =
        some (broadcastOutN [5, 7] [(0, 2), (1, 3), (4, 4)], f) ∧
      applySeqSrc rewritten [5, 7] =
        some (broadcastOutN [5, 7] [(0, 2), (1, 3), (4, 4)], g) ∧
      ∀ n, n < (broadcastOutN [5, 7] [(0, 2), (1, 3), (4, 4)]).prod →
        f n = g n := by
  have hleg : legalKeys
      (([(0, 2), (1, 3), (4, 4)] : List (Nat × Nat)).map Prod.fst)
      ([5, 7] : List Nat).length :=
    ⟨List.chain'_cons.mpr ⟨by decide,
      List.chain'_cons.mpr ⟨by decide, List.chain'_singleton _⟩⟩,
     by decide⟩
  exact ⟨hleg,
    claim8_broadcast_tile_refinement [(0, 2), (1, 3), (4, 4)] [5, 7] hleg⟩

end Einshape
